import Mathlib

/-!
# Verification of the `affine_transform` n-dimensional image resampling library

This file gives a shallow embedding, in exact rational arithmetic, of the
Python wrapper `affine_transform.transform` (`affine_transform/affine_transform.py`)
together with a model of the compiled resampling core `_affine_transform`
(the C++ extension is not part of the Python sources; its behaviour is modelled
from the design document: coordinate mapping, boundary sampling, multilinear and
Catmull-Rom cubic interpolation).

Floating point numbers are idealised as rationals (`ℚ`); dtypes (`float32`,
`float64`, integer, ...) are kept as tags so that the wrapper's dtype promotion
and compatibility checks can be stated, while arithmetic itself is exact.
n-dimensional numpy arrays are modelled as a shape vector plus a flat row-major
data list, exactly the mixed-radix layout the design document describes.
-/

namespace AffineND

/-- Numpy dtype tags.  Only the distinctions the wrapper inspects are kept:
`float64`, `float32`, and everything else (promoted to `float64`). -/
inductive DType where
  | f32 : DType
  | f64 : DType
  | intT : DType
  | otherT : DType
deriving DecidableEq, Repr

/-- An n-dimensional numpy array: dtype tag, shape, and flat row-major data.
A well-formed array has `data.length = shape.prod`. -/
structure NdArr where
  dt : DType
  shape : List ℕ
  data : List ℚ
deriving DecidableEq, Repr

/-- A vector argument as the caller hands it to `transform`: its values, and,
when the caller passed a numpy array, the array's dtype (`arrDt = some dt`).
`arrDt = none` models a plain Python sequence (tuple/list).  `np.asarray(v, dtype)`
returns the caller's own array object (so later in-place updates are visible to
the caller) exactly when `arrDt = some dtype`. -/
structure ArgVec where
  vals : List ℚ
  arrDt : Option DType
deriving DecidableEq, Repr

/-- The kinds of `ValueError` the wrapper raises, in source order. -/
inductive ValErrKind where
  | linShape : ValErrKind
  | translationLen : ValErrKind
  | originLen : ValErrKind
  | outputDim : ValErrKind
  | outputDtype : ValErrKind
  | orderName : ValErrKind
  | outputOriginLen : ValErrKind
deriving DecidableEq, Repr

/-- Python exceptions surfaced by a `transform` call: `ValueError` (with which
check fired), `numpy.linalg.LinAlgError` (non-invertible or non-2-d input to
`np.linalg.inv`), and a failure of the compiled core's own argument validation. -/
inductive PyErr where
  | valueError : ValErrKind → PyErr
  | linAlgError : PyErr
  | coreError : PyErr
deriving DecidableEq, Repr

/-- Interpolation kernel selector, fixed per call. -/
inductive Kern where
  | lin : Kern
  | cub : Kern
deriving DecidableEq, Repr

/-! ## Flat mixed-radix indexing -/

/-- Decode a flat row-major position into a multi-index for `shape`. -/
def decode : List ℕ → ℕ → List ℕ
  | [], _ => []
  | _ :: rest, k => k / rest.prod :: decode rest (k % rest.prod)

/-- Encode a multi-index into its flat row-major position for `shape`. -/
def encode : List ℕ → List ℕ → ℕ
  | [], _ => 0
  | _ :: _, [] => 0
  | _ :: rest, i :: is => i * rest.prod + encode rest is

/-! ## Flat matrix helpers (`numpy.linalg` model) -/

/-- The `(n-1)×(n-1)` minor of an `n×n` flat matrix, removing row `r`, column `c`. -/
def minorFlat (n : ℕ) (v : List ℚ) (r c : ℕ) : List ℚ :=
  (List.range ((n - 1) * (n - 1))).map fun k =>
    v.getD ((if k / (n - 1) < r then k / (n - 1) else k / (n - 1) + 1) * n +
            (if k % (n - 1) < c then k % (n - 1) else k % (n - 1) + 1)) 0

/-- Determinant of an `n×n` flat matrix by Laplace expansion along the first row. -/
def detFlat : ℕ → List ℚ → ℚ
  | 0, _ => 1
  | n + 1, v =>
    ((List.range (n + 1)).map fun j =>
      (-1) ^ j * v.getD j 0 * detFlat n (minorFlat (n + 1) v 0 j)).sum

/-- Inverse of an `n×n` flat matrix by the adjugate formula
(entry `(i,j)` is the signed `(j,i)` cofactor over the determinant). -/
def invFlat (n : ℕ) (v : List ℚ) : List ℚ :=
  (List.range (n * n)).map fun k =>
    (-1) ^ (k / n + k % n) * detFlat (n - 1) (minorFlat n v (k % n) (k / n)) / detFlat n v

/-- Model of `numpy.linalg.inv`: requires at least two dimensions and square
trailing axes (else `LinAlgError`), inverts each trailing `n×n` slice of the
stack, and fails with `LinAlgError` when any slice is singular. -/
def npLinalgInv (a : NdArr) : Except PyErr NdArr :=
  if a.shape.length < 2 then .error .linAlgError
  else
    if a.shape.getLastD 0 ≠ a.shape.getD (a.shape.length - 2) 0 then .error .linAlgError
    else
      let n := a.shape.getLastD 0
      let slices := (List.range (a.shape.take (a.shape.length - 2)).prod).map fun s =>
        (a.data.drop (s * (n * n))).take (n * n)
      if slices.any (fun sl => decide (detFlat n sl = 0)) then .error .linAlgError
      else .ok ⟨.f64, a.shape, (slices.map (invFlat n)).flatten⟩

/-- Model of numpy's `.T`: reverse all axes. -/
def transposeArr (a : NdArr) : NdArr :=
  ⟨a.dt, a.shape.reverse,
   (List.range a.shape.prod).map fun k =>
     a.data.getD (encode a.shape ((decode a.shape.reverse k).reverse)) 0⟩

/-- Elementwise negation (numpy unary `-`). -/
def negVec (v : List ℚ) : List ℚ := v.map (fun x => -x)

/-- Elementwise subtraction (numpy `-` on same-length 1-d arrays). -/
def zipSub (a b : List ℚ) : List ℚ := List.zipWith (fun x y => x - y) a b

/-- Elementwise addition. -/
def zipAdd (a b : List ℚ) : List ℚ := List.zipWith (fun x y => x + y) a b

/-- Model of numpy `A @ v` for an array `A` of rank ≥ 1 and a 1-d vector `v`:
contract the last axis of `A` with `v`; the result has shape `A.shape[:-1]`. -/
def matVecLast (a : NdArr) (v : List ℚ) : NdArr :=
  ⟨a.dt, a.shape.take (a.shape.length - 1),
   (List.range (a.shape.take (a.shape.length - 1)).prod).map fun r =>
     (List.zipWith (fun x y => x * y)
       ((a.data.drop (r * a.shape.getLastD 0)).take (a.shape.getLastD 0)) v).sum⟩

/-- Model of numpy broadcast `A + v` for a 1-d `v` whose length matches the last
axis of `A`: add `v` to every row along the last axis. -/
def addLast (a : NdArr) (v : List ℚ) : NdArr :=
  ⟨a.dt, a.shape,
   ((List.range (a.shape.take (a.shape.length - 1)).prod).map fun r =>
     List.zipWith (fun x y => x + y)
       ((a.data.drop (r * a.shape.getLastD 0)).take (a.shape.getLastD 0)) v).flatten⟩

/-! ## The resampling core, modelled from the spec

The compiled extension `_affine_transform` (C++: CoordinateMapper,
BoundarySampler, Linear/Cubic kernels, Executor) is not among the Python
sources.  The definitions below are modelled from the spec (design document
§4.1–§4.5, §6): the core receives the already-inverted linear map (passed
column-wise, i.e. transposed, by the wrapper — `linear_transformation.T  # columns`),
a combined offset vector, the input and output grids and a background value;
it validates its arguments (failing before any mutation on malformed input),
and writes `output[idx] = kernel(s(idx))` with `s(idx) = invL·idx + offset`
for every output index.  The Executor's multithreading is behaviourally
invisible (the spec guarantees the output is independent of the partition),
so the model computes cells in flat row-major order. -/

/-- All components of an integer lattice index lie inside the grid bounds. -/
def inBounds (ix : List ℤ) (shape : List ℕ) : Prop :=
  ix.length = shape.length ∧ ∀ p ∈ List.zip ix shape, 0 ≤ p.1 ∧ p.1 < (p.2 : ℤ)

instance (ix : List ℤ) (shape : List ℕ) : Decidable (inBounds ix shape) := by
  unfold inBounds; infer_instance

/-- Modelled from the spec (§4.2 BoundarySampler): fetch the grid value at an
integer index, substituting the background value unconditionally when any
component is out of range. -/
def fetchAt (input : NdArr) (bg : ℚ) (ix : List ℤ) : ℚ :=
  if inBounds ix input.shape then input.data.getD (encode input.shape (ix.map Int.toNat)) 0
  else bg

/-- Modelled from the spec (§4.3/§4.4): the per-axis taps of a kernel at a
fractional coordinate — lattice offset and 1-d weight.  Linear: floor and
floor+1 weighted `1−w, w`; cubic: the four Catmull-Rom weights at offsets
`{-1,0,1,2}` from the floor. -/
def axisTaps : Kern → ℚ → List (ℤ × ℚ)
  | .lin, s => [(⌊s⌋, 1 - Int.fract s), (⌊s⌋ + 1, Int.fract s)]
  | .cub, s =>
    [(⌊s⌋ - 1, -(1/2) * Int.fract s ^ 3 + Int.fract s ^ 2 - (1/2) * Int.fract s),
     (⌊s⌋,     (3/2) * Int.fract s ^ 3 - (5/2) * Int.fract s ^ 2 + 1),
     (⌊s⌋ + 1, -(3/2) * Int.fract s ^ 3 + 2 * Int.fract s ^ 2 + (1/2) * Int.fract s),
     (⌊s⌋ + 2, (1/2) * Int.fract s ^ 3 - (1/2) * Int.fract s ^ 2)]

/-- Cartesian product of per-axis taps: every corner/tap combination with its
product weight (the `2^d` hypercube corners, resp. `4^d` cubic taps). -/
def tapsProd : List (List (ℤ × ℚ)) → List (List ℤ × ℚ)
  | [] => [([], 1)]
  | ax :: rest => ax.flatMap fun t => (tapsProd rest).map fun u => (t.1 :: u.1, t.2 * u.2)

/-- Modelled from the spec (§4.3/§4.4): interpolated value at fractional
coordinate `s` — the weight-product-summed BoundarySampler fetches over all
tap combinations, boundary substitution applied per individual tap. -/
def interp (k : Kern) (input : NdArr) (bg : ℚ) (s : List ℚ) : ℚ :=
  ((tapsProd (s.map (axisTaps k))).map fun t => t.2 * fetchAt input bg t.1).sum

/-- Modelled from the spec (§4.1 CoordinateMapper): the fractional input
coordinate of output index `idx`, `s(idx) = invL·idx + offset`, where the
matrix is supplied column-wise (`matT` is `invL` transposed). -/
def sampleCoord (d : ℕ) (matT offset : List ℚ) (idx : List ℕ) : List ℚ :=
  (List.range d).map fun i =>
    ((List.range d).map fun j => matT.getD (j * d + i) 0 * ((idx.getD j 0 : ℕ) : ℚ)).sum +
      offset.getD i 0

/-- Modelled from the spec (§4.5 Executor, §6 core entry point): the compiled
core `_affine_transform.transform_linear` / `transform_cubic`.  Validates that
the offset is a `d`-vector, the matrix a `d×d` array and the grids compatible
(failing before any mutation otherwise), then fills every output cell with the
interpolated value at its mapped coordinate. -/
def coreTransform (k : Kern) (offset matT input output : NdArr) (bg : ℚ) :
    Except PyErr NdArr :=
  if offset.shape = [input.shape.length] ∧
      matT.shape = [input.shape.length, input.shape.length] ∧
      output.shape.length = input.shape.length ∧ output.dt = input.dt then
    .ok ⟨output.dt, output.shape,
      (List.range output.shape.prod).map fun c =>
        interp k input bg
          (sampleCoord input.shape.length matT.data offset.data (decode output.shape c))⟩
  else .error .coreError

/-! ## The validation wrapper `transform` -/

deriving instance DecidableEq for Except

/-- The working precision: `float64` and `float32` inputs keep their dtype,
everything else is promoted to `float64`. -/
def workingDType (dt : DType) : DType :=
  if dt = .f64 ∨ dt = .f32 then dt else .f64

/-- The observable outcome of one `transform` call: the returned value or the
exception, plus the caller-visible final contents of the buffers the caller
handed in (the `translation` argument's array, and the supplied `output_image`),
and instrumentation recording the origin vector the wrapper resolved, the
combined offset it passed to the core, and how many output cells were sampled. -/
structure TransformResult where
  ret : Except PyErr NdArr
  translationFinal : List ℚ
  outputFinal : Option (List ℚ)
  originUsed : Option (List ℚ)
  coreOffset : Option (List ℚ)
  sampled : ℕ
deriving DecidableEq, Repr

/-- The tail of the wrapper, after `translation -= output_image_origin` has
(possibly) been applied in place: `tWork` is the contents of the wrapper's
local `translation` array, which the caller also sees whenever they passed an
array whose dtype already was the working dtype.  Performs `np.linalg.inv`,
computes the combined offset `invL·(−translation−origin) + origin`, and calls
the compiled core. -/
def transformTail (linear_transformation : NdArr) (translation : ArgVec)
    (originVec : List ℚ) (output_image : Option NdArr) (background_value : ℚ)
    (dtype : DType) (inputConv : NdArr) (outputArr : NdArr) (kern : Kern)
    (tWork : List ℚ) : TransformResult :=
  let tVisible := if translation.arrDt = some dtype then tWork else translation.vals
  match npLinalgInv linear_transformation with
  | .error e => ⟨.error e, tVisible, output_image.map (·.data), some originVec, none, 0⟩
  | .ok linInv =>
    let combined := addLast (matVecLast linInv (zipSub (negVec tWork) originVec)) originVec
    match coreTransform kern combined (transposeArr linInv) inputConv outputArr
        background_value with
    | .error e =>
      ⟨.error e, tVisible, output_image.map (·.data), some originVec, some combined.data, 0⟩
    | .ok res =>
      ⟨.ok res, tVisible, output_image.map (fun _ => res.data), some originVec,
        some combined.data, outputArr.shape.prod⟩

/-- Stages of `affine_transform.transform` after the origin has been resolved:
output-image resolution, order dispatch, output-origin length check and the
in-place `translation -= output_image_origin`, then `transformTail`.  Mirrors
the Python source statement by statement. -/
def transformRest (input_image : NdArr) (linear_transformation : NdArr)
    (translation : ArgVec) (order : String) (originVec : List ℚ)
    (output_image : Option NdArr) (output_image_origin : Option (List ℚ))
    (background_value : ℚ) (dtype : DType) : TransformResult :=
  match (match output_image with
    | none => Except.ok (⟨dtype, input_image.shape, List.replicate input_image.shape.prod 0⟩ : NdArr)
    | some oi =>
      if oi.shape.length ≠ input_image.shape.length then Except.error ValErrKind.outputDim
      else if oi.dt ≠ dtype then Except.error ValErrKind.outputDtype
      else Except.ok oi) with
  | .error k =>
    ⟨.error (.valueError k), translation.vals, output_image.map (·.data), some originVec, none, 0⟩
  | .ok outputArr =>
    match (if order = "linear" then Except.ok Kern.lin
      else if order = "cubic" then Except.ok Kern.cub
      else Except.error (PyErr.valueError .orderName)) with
    | .error e =>
      ⟨.error e, translation.vals, output_image.map (·.data), some originVec, none, 0⟩
    | .ok kern =>
      match output_image_origin with
      | some u =>
        if u.length ≠ input_image.shape.length then
          ⟨.error (.valueError .outputOriginLen), translation.vals,
            output_image.map (·.data), some originVec, none, 0⟩
        else
          transformTail linear_transformation translation originVec output_image
            background_value dtype ⟨dtype, input_image.shape, input_image.data⟩
            outputArr kern (zipSub translation.vals u)
      | none =>
        transformTail linear_transformation translation originVec output_image
          background_value dtype ⟨dtype, input_image.shape, input_image.data⟩
          outputArr kern translation.vals

/-- The default origin `np.fromiter(((x - 1) / 2 for x in input_image.shape))`:
the grid centre, per axis. -/
def defaultOrigin (shape : List ℕ) : List ℚ := shape.map fun x => ((Nat.cast x : ℚ) - 1) / 2

/-- Shallow embedding of `affine_transform.transform` (the Python validation
wrapper), statement by statement in source order: linear-shape check, working
dtype, translation length check and `asarray`, origin default/check, output
image allocation/checks, order dispatch, output-origin length check and
in-place `translation -= output_image_origin`, `np.linalg.inv`, the combined
offset `invL·(−translation−origin) + origin`, and the core call. -/
def transform (input_image : NdArr) (linear_transformation : NdArr)
    (translation : ArgVec) (order : String := "linear")
    (origin : Option ArgVec := none) (output_image : Option NdArr := none)
    (output_image_origin : Option (List ℚ) := none)
    (background_value : ℚ := 0) : TransformResult :=
  let d := input_image.shape.length
  let outOrig := output_image.map (·.data)
  if ¬ (∀ v ∈ linear_transformation.shape, v = d) then
    ⟨.error (.valueError .linShape), translation.vals, outOrig, none, none, 0⟩
  else
    let dtype := workingDType input_image.dt
    if translation.vals.length ≠ d then
      ⟨.error (.valueError .translationLen), translation.vals, outOrig, none, none, 0⟩
    else
      match origin with
      | none =>
        transformRest input_image linear_transformation translation order
          (defaultOrigin input_image.shape)
          output_image output_image_origin background_value dtype
      | some o =>
        if o.vals.length ≠ d then
          ⟨.error (.valueError .originLen), translation.vals, outOrig, none, none, 0⟩
        else
          transformRest input_image linear_transformation translation order o.vals
            output_image output_image_origin background_value dtype

/-! ## List utilities -/

theorem getD_range_map (n k : ℕ) (f : ℕ → ℚ) :
    ((List.range n).map f).getD k 0 = if k < n then f k else 0 := by
  rcases lt_or_le k n with h | h
  · simp [List.getD_eq_getElem?_getD, List.getElem?_map, List.getElem?_range h, h]
  · rw [List.getD_eq_getElem?_getD, List.getElem?_eq_none (by simpa using h)]
    simp [Nat.not_lt.mpr h]

theorem map_range_getD (n : ℕ) (l : List ℚ) (h : l.length = n) :
    (List.range n).map (fun j => l.getD j 0) = l := by
  apply List.ext_getElem (by simpa using h.symm)
  intro i h1 h2
  simp [List.getD_eq_getElem?_getD, List.getElem?_eq_getElem h2]

theorem getD_zipWith (f : ℚ → ℚ → ℚ) (a b : List ℚ) (k : ℕ)
    (h1 : k < a.length) (h2 : k < b.length) :
    (List.zipWith f a b).getD k 0 = f (a.getD k 0) (b.getD k 0) := by
  rw [List.getD_eq_getElem?_getD, List.getElem?_zipWith]
  simp [List.getElem?_eq_getElem, h1, h2, List.getD_eq_getElem?_getD]

theorem getD_drop {α : Type} (m : List α) (d0 : α) (s j : ℕ) :
    (m.drop s).getD j d0 = m.getD (s + j) d0 := by
  simp [List.getD_eq_getElem?_getD, List.getElem?_drop]

theorem getD_take {α : Type} (m : List α) (d0 : α) (d j : ℕ) (h : j < d) :
    (m.take d).getD j d0 = m.getD j d0 := by
  simp [List.getD_eq_getElem?_getD, List.getElem?_take, h]

theorem sum_map_range (n : ℕ) (f : ℕ → ℚ) :
    ((List.range n).map f).sum = ∑ j in Finset.range n, f j := by
  induction n with
  | zero => simp
  | succ m ih => rw [List.range_succ, Finset.sum_range_succ]; simp [ih]

theorem sum_map_range_single (n i : ℕ) (f : ℕ → ℚ) (hi : i < n)
    (h0 : ∀ j, j < n → j ≠ i → f j = 0) : ((List.range n).map f).sum = f i := by
  rw [sum_map_range]
  exact Finset.sum_eq_single_of_mem i (Finset.mem_range.mpr hi)
    fun j hj hne => h0 j (Finset.mem_range.mp hj) hne

theorem sum_zipWith_mul (a b : List ℚ) (h : a.length = b.length) :
    (List.zipWith (fun x y => x * y) a b).sum =
      ((List.range a.length).map fun j => a.getD j 0 * b.getD j 0).sum := by
  induction a generalizing b with
  | nil => simp
  | cons x a ih =>
    cases b with
    | nil => simp at h
    | cons y b =>
      simp only [List.zipWith_cons_cons, List.sum_cons, List.length_cons,
        List.range_succ_eq_map, List.map_cons, List.map_map]
      rw [ih b (by simpa using h)]
      simp [Function.comp_def]

/-! ## Mixed-radix index lemmas -/

theorem decode_length (shape : List ℕ) (k : ℕ) : (decode shape k).length = shape.length := by
  induction shape generalizing k with
  | nil => rfl
  | cons s rest ih => simp [decode, ih]

theorem decode_lt (shape : List ℕ) (k : ℕ) (h : k < shape.prod) :
    ∀ p ∈ (decode shape k).zip shape, p.1 < p.2 := by
  induction shape generalizing k with
  | nil => simp [decode]
  | cons s rest ih =>
    intro p hp
    rw [List.prod_cons] at h
    have hr : 0 < rest.prod :=
      Nat.pos_of_ne_zero fun h0 => by simp [h0] at h
    rcases List.mem_cons.mp (by simpa [decode] using hp) with h1 | h1
    · subst h1
      simpa using Nat.div_lt_of_lt_mul (by rw [Nat.mul_comm] at h; exact h)
    · exact ih (k % rest.prod) (Nat.mod_lt _ hr) p h1

theorem encode_decode (shape : List ℕ) (k : ℕ) (h : k < shape.prod) :
    encode shape (decode shape k) = k := by
  induction shape generalizing k with
  | nil =>
    simp only [List.prod_nil, Nat.lt_one_iff] at h
    simp [encode, decode, h]
  | cons s rest ih =>
    have hr : 0 < rest.prod := by
      rw [List.prod_cons] at h
      exact Nat.pos_of_ne_zero fun h0 => by simp [h0] at h
    simp only [decode, encode]
    rw [ih (k % rest.prod) (Nat.mod_lt _ hr)]
    exact Nat.div_add_mod' k rest.prod

theorem encode_lt (shape : List ℕ) (idx : List ℕ) (hlen : idx.length = shape.length)
    (h : ∀ p ∈ idx.zip shape, p.1 < p.2) : encode shape idx < shape.prod := by
  induction shape generalizing idx with
  | nil =>
    cases idx with
    | nil => simp [encode]
    | cons i is => simp at hlen
  | cons s rest ih =>
    cases idx with
    | nil => simp at hlen
    | cons i is =>
      have hi : i < s := h (i, s) (by simp)
      have hrec : encode rest is < rest.prod :=
        ih is (by simpa using hlen) fun p hp => h p (by simp [hp])
      calc encode (s :: rest) (i :: is) = i * rest.prod + encode rest is := rfl
        _ < i * rest.prod + rest.prod := by omega
        _ = (i + 1) * rest.prod := by ring
        _ ≤ s * rest.prod := Nat.mul_le_mul_right _ (by omega)
        _ ≤ (s :: rest).prod := by rw [List.prod_cons]

/-- The `d×d` identity matrix, flat row-major. -/
def eyeFlat (d : ℕ) : List ℚ :=
  (List.range (d * d)).map fun k => if k / d = k % d then 1 else 0

/-- The identity matrix as a numpy array (`np.eye(d)`). -/
def eyeArr (d : ℕ) : NdArr := ⟨.f64, [d, d], eyeFlat d⟩

/-! ## Row-major position arithmetic -/

theorem idx_div (d i j : ℕ) (hj : j < d) : (i * d + j) / d = i := by
  rw [Nat.mul_comm, Nat.mul_add_div (by omega)]
  simp [Nat.div_eq_of_lt hj]

theorem idx_mod (d i j : ℕ) (hj : j < d) : (i * d + j) % d = j := by
  rw [Nat.mul_comm, Nat.mul_add_mod]
  exact Nat.mod_eq_of_lt hj

theorem idx_lt (d i j : ℕ) (hi : i < d) (hj : j < d) : i * d + j < d * d :=
  calc i * d + j < i * d + d := by omega
    _ = (i + 1) * d := by ring
    _ ≤ d * d := Nat.mul_le_mul_right d (by omega)

theorem eyeFlat_length (d : ℕ) : (eyeFlat d).length = d * d := by
  simp [eyeFlat]

theorem eyeFlat_getD (d i j : ℕ) (hi : i < d) (hj : j < d) :
    (eyeFlat d).getD (i * d + j) 0 = if i = j then 1 else 0 := by
  rw [eyeFlat, getD_range_map, if_pos (idx_lt d i j hi hj), idx_div d i j hj, idx_mod d i j hj]

theorem getD_minorFlat (n : ℕ) (v : List ℚ) (r c i j : ℕ) (hi : i < n - 1) (hj : j < n - 1) :
    (minorFlat n v r c).getD (i * (n - 1) + j) 0 =
      v.getD ((if i < r then i else i + 1) * n + (if j < c then j else j + 1)) 0 := by
  rw [minorFlat, getD_range_map, if_pos (idx_lt (n - 1) i j hi hj),
    idx_div (n - 1) i j hj, idx_mod (n - 1) i j hj]

/-! ## Determinant and inverse of the identity matrix -/

theorem minorFlat_eye_diag (d r : ℕ) (hr : r < d) :
    minorFlat d (eyeFlat d) r r = eyeFlat (d - 1) := by
  unfold minorFlat eyeFlat
  apply List.map_congr_left
  intro k hk
  rw [List.mem_range] at hk
  have hd1 : 0 < d - 1 := by
    rcases Nat.eq_zero_or_pos (d - 1) with h0 | h0
    · rw [h0] at hk; omega
    · exact h0
  have hi : k / (d - 1) < d - 1 := Nat.div_lt_of_lt_mul hk
  have hj : k % (d - 1) < d - 1 := Nat.mod_lt _ hd1
  have hsi : (if k / (d - 1) < r then k / (d - 1) else k / (d - 1) + 1) < d := by
    split <;> omega
  have hsj : (if k % (d - 1) < r then k % (d - 1) else k % (d - 1) + 1) < d := by
    split <;> omega
  have := eyeFlat_getD d _ _ hsi hsj
  rw [eyeFlat] at this
  rw [this]
  congr 1
  simp only [eq_iff_iff]
  constructor <;> intro h
  · split at h <;> split at h <;> omega
  · rw [h]

theorem detFlat_zero_row (d : ℕ) (v : List ℚ) (r : ℕ) (hr : r < d)
    (h : ∀ j, j < d → v.getD (r * d + j) 0 = 0) : detFlat d v = 0 := by
  induction d generalizing v r with
  | zero => omega
  | succ n ih =>
    rw [detFlat]
    apply List.sum_eq_zero
    intro x hx
    simp only [List.mem_map, List.mem_range] at hx
    obtain ⟨j, hj, rfl⟩ := hx
    rcases Nat.eq_zero_or_pos r with h0 | h0
    · have hv : v.getD j 0 = 0 := by
        have := h j hj
        rwa [h0, Nat.zero_mul, Nat.zero_add] at this
      rw [hv]
      ring
    · have hz : detFlat n (minorFlat (n + 1) v 0 j) = 0 := by
        apply ih (minorFlat (n + 1) v 0 j) (r - 1) (by omega)
        intro j' hj'
        have := getD_minorFlat (n + 1) v 0 j (r - 1) j' (by omega) (by simpa using hj')
        simp only [Nat.add_sub_cancel] at this
        rw [this, if_neg (by omega)]
        have hcol : (if j' < j then j' else j' + 1) < n + 1 := by split <;> omega
        have hrr : r - 1 + 1 = r := by omega
        rw [hrr]
        exact h _ hcol
      rw [hz]
      ring

theorem detFlat_eye : ∀ d : ℕ, detFlat d (eyeFlat d) = 1
  | 0 => rfl
  | d + 1 => by
    rw [detFlat]
    rw [sum_map_range_single (d + 1) 0 _ (by omega) ?_]
    case _ =>
      have h00 : (eyeFlat (d + 1)).getD 0 0 = 1 := by
        have := eyeFlat_getD (d + 1) 0 0 (by omega) (by omega)
        simpa using this
      rw [h00, minorFlat_eye_diag (d + 1) 0 (by omega)]
      simp only [Nat.add_sub_cancel]
      rw [detFlat_eye d]
      ring
    case _ =>
      intro j hj hne
      have h0j : (eyeFlat (d + 1)).getD j 0 = 0 := by
        have := eyeFlat_getD (d + 1) 0 j (by omega) hj
        simpa [Ne.symm hne] using this
      rw [h0j]
      ring

theorem invFlat_eye (d : ℕ) : invFlat d (eyeFlat d) = eyeFlat d := by
  unfold invFlat
  conv_rhs => rw [eyeFlat]
  apply List.map_congr_left
  intro k hk
  rw [List.mem_range] at hk
  have hd : 0 < d := by
    rcases Nat.eq_zero_or_pos d with h0 | h0
    · rw [h0] at hk; omega
    · exact h0
  have hi : k / d < d := Nat.div_lt_of_lt_mul hk
  have hj : k % d < d := Nat.mod_lt _ hd
  rw [detFlat_eye d]
  rcases eq_or_ne (k / d) (k % d) with heq | hne
  · rw [if_pos heq, ← heq, minorFlat_eye_diag d (k / d) hi, detFlat_eye (d - 1)]
    rw [← two_mul, pow_mul]
    norm_num
  · rw [if_neg hne]
    have hz : detFlat (d - 1) (minorFlat d (eyeFlat d) (k % d) (k / d)) = 0 := by
      rcases lt_or_gt_of_ne hne with hlt | hgt
      · apply detFlat_zero_row (d - 1) _ (k / d) (by omega)
        intro j' hj'
        rw [getD_minorFlat d (eyeFlat d) (k % d) (k / d) (k / d) j' (by omega) hj']
        rw [if_pos hlt]
        have hcol : (if j' < k / d then j' else j' + 1) < d := by split <;> omega
        rw [eyeFlat_getD d _ _ hi hcol]
        apply if_neg
        split <;> omega
      · apply detFlat_zero_row (d - 1) _ (k / d - 1) (by omega)
        intro j' hj'
        rw [getD_minorFlat d (eyeFlat d) (k % d) (k / d) (k / d - 1) j' (by omega) hj']
        rw [if_neg (by omega)]
        have h1 : k / d - 1 + 1 = k / d := by omega
        rw [h1]
        have hcol : (if j' < k / d then j' else j' + 1) < d := by split <;> omega
        rw [eyeFlat_getD d _ _ hi hcol]
        apply if_neg
        split <;> omega
    rw [hz]
    ring

/-! ## Evaluation lemmas for the numpy-operation models -/

theorem npLinalgInv_matrix (dt : DType) (d : ℕ) (v : List ℚ) (hlen : v.length = d * d)
    (hdet : detFlat d v ≠ 0) :
    npLinalgInv ⟨dt, [d, d], v⟩ = .ok ⟨.f64, [d, d], invFlat d v⟩ := by
  have htake : v.take (d * d) = v := by rw [← hlen, List.take_length]
  have hr1 : List.range 1 = [0] := rfl
  simp [npLinalgInv, htake, hdet, hr1, Function.comp_def]

theorem npLinalgInv_eye (d : ℕ) :
    npLinalgInv (eyeArr d) = .ok ⟨.f64, [d, d], eyeFlat d⟩ := by
  rw [eyeArr, npLinalgInv_matrix .f64 d (eyeFlat d) (eyeFlat_length d)
    (by rw [detFlat_eye]; norm_num), invFlat_eye]

/-- Row-major data of the transpose of a flat `d×d` matrix. -/
def transposeFlat (d : ℕ) (v : List ℚ) : List ℚ :=
  (List.range (d * d)).map fun k => v.getD (k % d * d + k / d) 0

theorem transposeArr_matrix (dt : DType) (d : ℕ) (v : List ℚ) :
    transposeArr ⟨dt, [d, d], v⟩ = ⟨dt, [d, d], transposeFlat d v⟩ := by
  unfold transposeArr transposeFlat
  simp [decode, encode, List.prod_cons, List.prod_nil]

theorem getD_transposeFlat (d : ℕ) (v : List ℚ) (i j : ℕ) (hi : i < d) (hj : j < d) :
    (transposeFlat d v).getD (j * d + i) 0 = v.getD (i * d + j) 0 := by
  rw [transposeFlat, getD_range_map, if_pos (idx_lt d j i hj hi),
    idx_div d j i hi, idx_mod d j i hi]

theorem transposeFlat_eye (d : ℕ) : transposeFlat d (eyeFlat d) = eyeFlat d := by
  unfold transposeFlat
  conv_rhs => rw [eyeFlat]
  apply List.map_congr_left
  intro k hk
  rw [List.mem_range] at hk
  have hd : 0 < d := by
    rcases Nat.eq_zero_or_pos d with h0 | h0
    · rw [h0] at hk; omega
    · exact h0
  rw [eyeFlat_getD d _ _ (Nat.mod_lt _ hd) (Nat.div_lt_of_lt_mul hk)]
  congr 1
  simp [eq_comm]

theorem matVecLast_matrix (dt : DType) (d : ℕ) (v w : List ℚ) :
    matVecLast ⟨dt, [d, d], v⟩ w =
      ⟨dt, [d], (List.range d).map fun r =>
        (List.zipWith (fun x y => x * y) ((v.drop (r * d)).take d) w).sum⟩ := by
  simp [matVecLast, List.getLastD]

theorem addLast_vec (dt : DType) (d : ℕ) (a w : List ℚ) (ha : a.length = d) :
    addLast ⟨dt, [d], a⟩ w = ⟨dt, [d], zipAdd a w⟩ := by
  have htake : a.take d = a := by rw [← ha, List.take_length]
  have hr1 : List.range 1 = [0] := rfl
  simp [addLast, zipAdd, List.getLastD, htake, hr1]

/-- Standard row-major matrix–vector product on flat data (§4.1 notation
`invL · x`). -/
def matVecFlat (d : ℕ) (m w : List ℚ) : List ℚ :=
  (List.range d).map fun i =>
    ((List.range d).map fun j => m.getD (i * d + j) 0 * w.getD j 0).sum

theorem rowdot_eq (d r : ℕ) (m w : List ℚ) (hm : m.length = d * d) (hw : w.length = d)
    (hr : r < d) :
    (List.zipWith (fun x y => x * y) ((m.drop (r * d)).take d) w).sum =
      ((List.range d).map fun j => m.getD (r * d + j) 0 * w.getD j 0).sum := by
  have h1 : (r + 1) * d ≤ d * d := Nat.mul_le_mul_right d (by omega)
  rw [Nat.succ_mul] at h1
  have hlen : ((m.drop (r * d)).take d).length = d := by
    simp only [List.length_take, List.length_drop, hm]
    omega
  rw [sum_zipWith_mul _ _ (hlen.trans hw.symm), hlen]
  apply congrArg
  apply List.map_congr_left
  intro j hj
  rw [List.mem_range] at hj
  rw [getD_take _ 0 _ _ hj, getD_drop]

theorem matVecLast_eq_matVecFlat (dt : DType) (d : ℕ) (m w : List ℚ)
    (hm : m.length = d * d) (hw : w.length = d) :
    matVecLast ⟨dt, [d, d], m⟩ w = ⟨dt, [d], matVecFlat d m w⟩ := by
  rw [matVecLast_matrix]
  congr 1
  apply List.map_congr_left
  intro r hr
  rw [List.mem_range] at hr
  exact rowdot_eq d r m w hm hw hr

theorem matVecFlat_length (d : ℕ) (m w : List ℚ) : (matVecFlat d m w).length = d := by
  simp [matVecFlat]

theorem matVecFlat_eye (d : ℕ) (w : List ℚ) (hw : w.length = d) :
    matVecFlat d (eyeFlat d) w = w := by
  unfold matVecFlat
  conv_rhs => rw [← map_range_getD d w hw]
  apply List.map_congr_left
  intro i hi
  rw [List.mem_range] at hi
  rw [sum_map_range_single d i _ hi ?_]
  · rw [eyeFlat_getD d i i hi hi, if_pos rfl, one_mul]
  · intro j hj hne
    rw [eyeFlat_getD d i j hi hj, if_neg fun h => hne h.symm, zero_mul]

theorem sampleCoord_eye (d : ℕ) (offset : List ℚ) (idx : List ℕ) :
    sampleCoord d (eyeFlat d) offset idx =
      (List.range d).map fun i => ((idx.getD i 0 : ℕ) : ℚ) + offset.getD i 0 := by
  unfold sampleCoord
  apply List.map_congr_left
  intro i hi
  rw [List.mem_range] at hi
  congr 1
  rw [sum_map_range_single d i _ hi ?_]
  · rw [eyeFlat_getD d i i hi hi, if_pos rfl, one_mul]
  · intro j hj hne
    rw [eyeFlat_getD d j i hj hi, if_neg hne, zero_mul]

/-! ## Interpolation-kernel lemmas -/

/-- The weighted sum of `F` over all tap combinations of the given per-axis
tap lists: the shape shared by both interpolation kernels. -/
def sumTaps (F : List ℤ → ℚ) (axes : List (List (ℤ × ℚ))) : ℚ :=
  ((tapsProd axes).map fun t => t.2 * F t.1).sum

theorem interp_eq_sumTaps (k : Kern) (input : NdArr) (bg : ℚ) (s : List ℚ) :
    interp k input bg s = sumTaps (fetchAt input bg) (s.map (axisTaps k)) := rfl

theorem sumTaps_nil (F : List ℤ → ℚ) : sumTaps F [] = F [] := by
  simp [sumTaps, tapsProd]

theorem sumTaps_cons (F : List ℤ → ℚ) (ax : List (ℤ × ℚ)) (rest : List (List (ℤ × ℚ))) :
    sumTaps F (ax :: rest) =
      (ax.map fun t => t.2 * sumTaps (fun ix => F (t.1 :: ix)) rest).sum := by
  induction ax with
  | nil => simp [sumTaps, tapsProd]
  | cons t ax ih =>
    have hsplit : tapsProd ((t :: ax) :: rest) =
        ((tapsProd rest).map fun u => (t.1 :: u.1, t.2 * u.2)) ++ tapsProd (ax :: rest) := by
      simp [tapsProd, List.flatMap_cons]
    unfold sumTaps
    rw [hsplit, List.map_append, List.sum_append]
    unfold sumTaps at ih
    rw [ih, List.map_cons, List.sum_cons, List.map_map]
    congr 1
    rw [← List.sum_map_mul_left]
    apply congrArg
    apply List.map_congr_left
    intro u _
    simp [Function.comp_def, mul_assoc]

/-- Elementwise cast of an integer index vector to rational coordinates. -/
def castIntQ (l : List ℤ) : List ℚ := l.map Int.cast

/-- The linear-kernel taps of an exact integer coordinate: full weight on the
lattice point itself, zero weight on its successor. -/
def intTaps (n : ℤ) : List (ℤ × ℚ) := [(n, 1), (n + 1, 0)]

theorem axisTaps_lin_intCast : axisTaps Kern.lin ∘ Int.cast = intTaps := by
  funext n
  simp [axisTaps, intTaps]

theorem sumTaps_lin_int (F : List ℤ → ℚ) (B : List ℤ) :
    sumTaps F (B.map intTaps) = F B := by
  induction B generalizing F with
  | nil => simp [sumTaps_nil]
  | cons n B ih =>
    rw [List.map_cons, sumTaps_cons,
      show intTaps n = [(n, 1), (n + 1, 0)] from rfl]
    simp only [List.map_cons, List.map_nil, List.sum_cons, List.sum_nil]
    rw [ih fun ix => F (n :: ix), ih fun ix => F ((n + 1) :: ix)]
    ring

theorem sumTaps_lin_split (F : List ℤ → ℚ) (A B : List ℤ) (x : ℚ) :
    sumTaps F (A.map intTaps ++ axisTaps .lin x :: B.map intTaps) =
      (1 - Int.fract x) * F (A ++ ⌊x⌋ :: B) + Int.fract x * F (A ++ (⌊x⌋ + 1) :: B) := by
  induction A generalizing F with
  | nil =>
    rw [List.map_nil, List.nil_append, sumTaps_cons,
      show axisTaps .lin x = [(⌊x⌋, 1 - Int.fract x), (⌊x⌋ + 1, Int.fract x)] from rfl]
    simp only [List.map_cons, List.map_nil, List.sum_cons, List.sum_nil]
    rw [sumTaps_lin_int, sumTaps_lin_int]
    simp only [List.nil_append]
    ring
  | cons n A ih =>
    rw [List.map_cons, List.cons_append, sumTaps_cons,
      show intTaps n = [(n, 1), (n + 1, 0)] from rfl]
    simp only [List.map_cons, List.map_nil, List.sum_cons, List.sum_nil]
    rw [ih fun ix => F (n :: ix), ih fun ix => F ((n + 1) :: ix)]
    simp only [List.cons_append]
    ring

theorem interp_lin_int (input : NdArr) (bg : ℚ) (B : List ℤ) :
    interp .lin input bg (castIntQ B) = fetchAt input bg B := by
  rw [interp_eq_sumTaps, castIntQ, List.map_map, axisTaps_lin_intCast]
  exact sumTaps_lin_int (fetchAt input bg) B

theorem interp_lin_split (input : NdArr) (bg : ℚ) (A B : List ℤ) (x : ℚ) :
    interp .lin input bg (castIntQ A ++ x :: castIntQ B) =
      (1 - Int.fract x) * fetchAt input bg (A ++ ⌊x⌋ :: B) +
        Int.fract x * fetchAt input bg (A ++ (⌊x⌋ + 1) :: B) := by
  rw [interp_eq_sumTaps, castIntQ, castIntQ, List.map_append, List.map_cons,
    List.map_map, List.map_map, axisTaps_lin_intCast]
  exact sumTaps_lin_split (fetchAt input bg) A B x

/-! ## BoundarySampler evaluation lemmas -/

theorem inBounds_natIndex (idx shape : List ℕ) (hlen : idx.length = shape.length)
    (hb : ∀ p ∈ idx.zip shape, p.1 < p.2) : inBounds (idx.map Int.ofNat) shape := by
  constructor
  · simpa using hlen
  · intro p hp
    rw [List.zip_map_left] at hp
    obtain ⟨⟨a, b⟩, hab, rfl⟩ := List.mem_map.mp hp
    have hab2 : a < b := by simpa using hb (a, b) hab
    simp only [Prod.map, id]
    exact ⟨Int.ofNat_nonneg a, Int.ofNat_lt.mpr hab2⟩

theorem fetchAt_natIndex (input : NdArr) (bg : ℚ) (idx : List ℕ)
    (hlen : idx.length = input.shape.length)
    (hb : ∀ p ∈ idx.zip input.shape, p.1 < p.2) :
    fetchAt input bg (idx.map Int.ofNat) = input.data.getD (encode input.shape idx) 0 := by
  unfold fetchAt
  rw [if_pos (inBounds_natIndex idx input.shape hlen hb), List.map_map]
  congr 2
  rw [show Int.toNat ∘ Int.ofNat = id from funext fun n => Int.toNat_natCast n, List.map_id]

theorem getD_replicate (n : ℕ) (c : ℚ) (i : ℕ) (h : i < n) :
    (List.replicate n c).getD i 0 = c := by
  rw [List.getD_eq_getElem?_getD, List.getElem?_eq_getElem (by simpa using h)]
  simp

theorem fetchAt_uniform (dt : DType) (sh : List ℕ) (c bg : ℚ) (ix : List ℤ) :
    fetchAt ⟨dt, sh, List.replicate sh.prod c⟩ bg ix = if inBounds ix sh then c else bg := by
  unfold fetchAt
  split
  · next h =>
    obtain ⟨hlen, hb⟩ := h
    apply getD_replicate
    apply encode_lt
    · simpa using hlen
    · intro p hp
      rw [List.zip_map_left] at hp
      obtain ⟨⟨a, b⟩, hab, rfl⟩ := List.mem_map.mp hp
      have := hb (a, b) hab
      simp only [Prod.map, id]
      omega
  · rfl

/-! ## Pipeline reduction lemmas for the wrapper -/

theorem invFlat_length (d : ℕ) (v : List ℚ) : (invFlat d v).length = d * d := by
  simp [invFlat]

/-- Generic version of `map_range_getD` for arbitrary element types. -/
theorem map_range_getD_f {α β : Type} (d0 : α) (f : α → β) (n : ℕ) (l : List α)
    (h : l.length = n) : (List.range n).map (fun j => f (l.getD j d0)) = l.map f := by
  apply List.ext_getElem (by simp [h])
  intro i h1 h2
  simp only [List.getElem_map, List.getElem_range]
  congr 1
  rw [List.getD_eq_getElem?_getD, List.getElem?_eq_getElem (by simp at h2; exact h2)]
  simp

theorem zipAdd_zipSub_zero (b : List ℚ) :
    zipAdd (zipSub (List.replicate b.length 0) b) b = List.replicate b.length 0 := by
  induction b with
  | nil => rfl
  | cons y b ih => simp [zipAdd, zipSub, List.replicate_succ] at ih ⊢; exact ih

/-- The combined offset the wrapper computes for the core:
`invL·(−translation − origin) + origin` (with the possibly output-origin-shifted
working translation). -/
def combinedOf (d : ℕ) (vInv tW ov : List ℚ) : List ℚ :=
  zipAdd (matVecFlat d vInv (zipSub (negVec tW) ov)) ov

/-- The output data the modelled core produces on the valid `d×d` path. -/
def coreOut (kern : Kern) (inputC : NdArr) (bg : ℚ) (d : ℕ) (vInv off : List ℚ)
    (oshape : List ℕ) : List ℚ :=
  (List.range oshape.prod).map fun c =>
    interp kern inputC bg (sampleCoord d (transposeFlat d vInv) off (decode oshape c))

theorem transform_origin_none (inp lin : NdArr) (t : ArgVec) (order : String)
    (out? : Option NdArr) (oio : Option (List ℚ)) (bg : ℚ)
    (hlin : ∀ v ∈ lin.shape, v = inp.shape.length)
    (ht : t.vals.length = inp.shape.length) :
    transform inp lin t order none out? oio bg =
      transformRest inp lin t order (defaultOrigin inp.shape)
        out? oio bg (workingDType inp.dt) := by
  simp only [transform]
  rw [if_neg (not_not_intro hlin), if_neg (not_not_intro ht)]

theorem transform_origin_some (inp lin : NdArr) (t : ArgVec) (order : String)
    (o : ArgVec) (out? : Option NdArr) (oio : Option (List ℚ)) (bg : ℚ)
    (hlin : ∀ v ∈ lin.shape, v = inp.shape.length)
    (ht : t.vals.length = inp.shape.length)
    (ho : o.vals.length = inp.shape.length) :
    transform inp lin t order (some o) out? oio bg =
      transformRest inp lin t order o.vals out? oio bg (workingDType inp.dt) := by
  simp only [transform]
  rw [if_neg (not_not_intro hlin), if_neg (not_not_intro ht)]
  rw [if_neg (not_not_intro ho)]

theorem transformRest_tail_eq (inp lin : NdArr) (t : ArgVec) (order : String) (ov : List ℚ)
    (out? : Option NdArr) (oio : Option (List ℚ)) (bg : ℚ) (dt : DType)
    (outputArr : NdArr) (kern : Kern) (tW : List ℚ)
    (hout : (out? = none ∧ outputArr = ⟨dt, inp.shape, List.replicate inp.shape.prod 0⟩) ∨
      (out? = some outputArr ∧ outputArr.shape.length = inp.shape.length ∧ outputArr.dt = dt))
    (horder : (order = "linear" ∧ kern = .lin) ∨ (order = "cubic" ∧ kern = .cub))
    (htW : (oio = none ∧ tW = t.vals) ∨
      (∃ u, oio = some u ∧ u.length = inp.shape.length ∧ tW = zipSub t.vals u)) :
    transformRest inp lin t order ov out? oio bg dt =
      transformTail lin t ov out? bg dt ⟨dt, inp.shape, inp.data⟩ outputArr kern tW := by
  rcases hout with ⟨rfl, rfl⟩ | ⟨rfl, h1, h2⟩ <;>
    rcases horder with ⟨rfl, rfl⟩ | ⟨rfl, rfl⟩ <;>
      rcases htW with ⟨rfl, rfl⟩ | ⟨u, rfl, hu, rfl⟩ <;>
        simp_all [transformRest]

theorem transformTail_matrix (lin : NdArr) (t : ArgVec) (ov : List ℚ) (out? : Option NdArr)
    (bg : ℚ) (dt : DType) (inputC outputArr : NdArr) (kern : Kern) (tW : List ℚ) (d : ℕ)
    (hd : inputC.shape.length = d)
    (hsh : lin.shape = [d, d]) (hlen : lin.data.length = d * d)
    (hdet : detFlat d lin.data ≠ 0)
    (hov : ov.length = d) (htW : tW.length = d)
    (houtd : outputArr.shape.length = d) (houtdt : outputArr.dt = inputC.dt) :
    transformTail lin t ov out? bg dt inputC outputArr kern tW =
      ⟨.ok ⟨outputArr.dt, outputArr.shape,
          coreOut kern inputC bg d (invFlat d lin.data)
            (combinedOf d (invFlat d lin.data) tW ov) outputArr.shape⟩,
        if t.arrDt = some dt then tW else t.vals,
        out?.map fun _ => coreOut kern inputC bg d (invFlat d lin.data)
          (combinedOf d (invFlat d lin.data) tW ov) outputArr.shape,
        some ov,
        some (combinedOf d (invFlat d lin.data) tW ov),
        outputArr.shape.prod⟩ := by
  obtain ⟨ldt, lsh, ldata⟩ := lin
  simp only at hsh hlen hdet
  subst hsh
  have hzlen : (zipSub (negVec tW) ov).length = d := by
    simp [zipSub, negVec, htW, hov]
  have hinv := npLinalgInv_matrix ldt d ldata hlen hdet
  unfold transformTail
  rw [hinv]
  simp only []
  rw [matVecLast_eq_matVecFlat .f64 d (invFlat d ldata) _ (invFlat_length d ldata) hzlen,
    addLast_vec .f64 d _ ov (matVecFlat_length d _ _), transposeArr_matrix]
  have hcore : coreTransform kern ⟨.f64, [d], combinedOf d (invFlat d ldata) tW ov⟩
      ⟨.f64, [d, d], transposeFlat d (invFlat d ldata)⟩ inputC outputArr bg =
      .ok ⟨outputArr.dt, outputArr.shape,
        coreOut kern inputC bg d (invFlat d ldata)
          (combinedOf d (invFlat d ldata) tW ov) outputArr.shape⟩ := by
    unfold coreTransform
    rw [if_pos (by exact ⟨by rw [hd], by rw [hd], by rw [hd, houtd], by rw [houtdt]⟩)]
    simp only [hd, coreOut]
  rw [show zipAdd (matVecFlat d (invFlat d ldata) (zipSub (negVec tW) ov)) ov =
    combinedOf d (invFlat d ldata) tW ov from rfl]
  rw [hcore]

/-! ## Identity-transform evaluation -/

theorem negVec_replicate_zero (n : ℕ) : negVec (List.replicate n 0) = List.replicate n 0 := by
  simp [negVec]

theorem castIntQ_ofNat (idx : List ℕ) :
    castIntQ (idx.map Int.ofNat) = idx.map Nat.cast := by
  rw [castIntQ, List.map_map]
  apply List.map_congr_left
  intro n _
  exact Int.cast_natCast n

theorem combinedOf_eye_zero (d : ℕ) (ov : List ℚ) (hov : ov.length = d) :
    combinedOf d (eyeFlat d) (List.replicate d 0) ov = List.replicate d 0 := by
  unfold combinedOf
  rw [negVec_replicate_zero]
  have hzlen : (zipSub (List.replicate d 0) ov).length = d := by
    simp [zipSub, hov]
  rw [matVecFlat_eye d _ hzlen]
  have := zipAdd_zipSub_zero ov
  rw [hov] at this
  exact this

theorem coreOut_eye_zero (kern : Kern) (inputC : NdArr) (bg : ℚ) (d : ℕ)
    (hd : inputC.shape.length = d) (hwf : inputC.data.length = inputC.shape.prod)
    (hkern : kern = .lin) :
    coreOut kern inputC bg d (eyeFlat d) (List.replicate d 0) inputC.shape =
      inputC.data := by
  subst hkern
  unfold coreOut
  rw [transposeFlat_eye]
  have hcell : ∀ c ∈ List.range inputC.shape.prod,
      interp .lin inputC bg
        (sampleCoord d (eyeFlat d) (List.replicate d 0) (decode inputC.shape c)) =
      inputC.data.getD c 0 := by
    intro c hc
    rw [List.mem_range] at hc
    have hlenidx : (decode inputC.shape c).length = d := by
      rw [decode_length, hd]
    rw [sampleCoord_eye]
    have hs : ((List.range d).map fun i =>
        (((decode inputC.shape c).getD i 0 : ℕ) : ℚ) + (List.replicate d 0).getD i 0) =
        castIntQ ((decode inputC.shape c).map Int.ofNat) := by
      rw [castIntQ_ofNat]
      rw [← map_range_getD_f 0 Nat.cast d (decode inputC.shape c) hlenidx]
      apply List.map_congr_left
      intro i hi
      rw [List.mem_range] at hi
      rw [getD_replicate d 0 i hi, add_zero]
    rw [hs, interp_lin_int,
      fetchAt_natIndex inputC bg (decode inputC.shape c) (by rw [decode_length])
        (decode_lt inputC.shape c hc),
      encode_decode inputC.shape c hc]
  rw [List.map_congr_left hcell]
  exact map_range_getD inputC.shape.prod inputC.data hwf

/-- **C4.** For every dimension `d ∈ [1,5]` and every input grid of that
dimensionality, `transform` with the identity linear transformation and zero
translation returns an output grid exactly equal to the input, cell for cell. -/
theorem identity_transform_eq_input (input : NdArr) (d : ℕ)
    (hd : input.shape.length = d) (h1 : 1 ≤ d) (h5 : d ≤ 5)
    (hwf : input.data.length = input.shape.prod) :
    (transform input (eyeArr d) ⟨List.replicate d 0, none⟩ "linear" none none none 0).ret =
      .ok ⟨workingDType input.dt, input.shape, input.data⟩ := by
  rw [transform_origin_none input (eyeArr d) ⟨List.replicate d 0, none⟩ "linear" none none 0
    (by simp [eyeArr, hd]) (by simp [hd])]
  rw [transformRest_tail_eq input (eyeArr d) ⟨List.replicate d 0, none⟩ "linear"
    (defaultOrigin input.shape) none none 0 (workingDType input.dt)
    ⟨workingDType input.dt, input.shape, List.replicate input.shape.prod 0⟩ .lin
    (List.replicate d 0)
    (Or.inl ⟨rfl, rfl⟩) (Or.inl ⟨rfl, rfl⟩) (Or.inl ⟨rfl, rfl⟩)]
  rw [transformTail_matrix (eyeArr d) ⟨List.replicate d 0, none⟩
    (defaultOrigin input.shape) none 0 (workingDType input.dt)
    ⟨workingDType input.dt, input.shape, input.data⟩
    ⟨workingDType input.dt, input.shape, List.replicate input.shape.prod 0⟩ .lin
    (List.replicate d 0) d (by simpa using hd) rfl
    (by simp only [eyeArr]; exact eyeFlat_length d)
    (by simp only [eyeArr]; rw [detFlat_eye]; norm_num)
    (by simp [defaultOrigin, hd]) (by simp)
    (by simpa using hd) rfl]
  simp only [eyeArr, invFlat_eye]
  rw [combinedOf_eye_zero d _ (by simp [defaultOrigin, hd])]
  have := coreOut_eye_zero .lin ⟨workingDType input.dt, input.shape, input.data⟩ 0 d
    (by simpa using hd) (by simpa using hwf) rfl
  rw [this]

/-! ## Fractional-translation evaluation -/

theorem zipAdd_zipSub_cancel (a b : List ℚ) (h : a.length = b.length) :
    zipAdd (zipSub a b) b = a := by
  induction a generalizing b with
  | nil => rfl
  | cons x a ih =>
    cases b with
    | nil => simp at h
    | cons y b =>
      simp only [zipAdd, zipSub, List.zipWith_cons_cons] at ih ⊢
      rw [ih b (by simpa using h)]
      simp

theorem combinedOf_eye (d : ℕ) (tv ov : List ℚ) (ht : tv.length = d) (hov : ov.length = d) :
    combinedOf d (eyeFlat d) tv ov = negVec tv := by
  unfold combinedOf
  have hzlen : (zipSub (negVec tv) ov).length = d := by simp [zipSub, negVec, ht, hov]
  rw [matVecFlat_eye d _ hzlen]
  exact zipAdd_zipSub_cancel (negVec tv) ov (by simp [negVec, ht, hov])

theorem inBounds_replicate (ix : List ℤ) (d s : ℕ) :
    inBounds ix (List.replicate d s) ↔
      ix.length = d ∧ ∀ a ∈ ix, 0 ≤ a ∧ a < (s : ℤ) := by
  induction ix generalizing d with
  | nil => cases d <;> simp [inBounds]
  | cons a tl ih =>
    cases d with
    | zero => simp [inBounds]
    | succ d' =>
      rw [List.replicate_succ]
      simp only [inBounds, List.zip_cons_cons, List.length_cons, List.length_replicate,
        List.mem_cons, Nat.succ_inj]
      constructor
      · rintro ⟨hl, hp⟩
        have htl := (ih d').mp ⟨by simpa using hl, fun p hp2 => hp p (Or.inr hp2)⟩
        exact ⟨hl, fun b hb => hb.elim (fun hba => hba ▸ hp (a, s) (Or.inl rfl))
          fun hbtl => htl.2 b hbtl⟩
      · rintro ⟨hl, hb⟩
        have htl := (ih d').mpr ⟨hl, fun b hbtl => hb b (Or.inr hbtl)⟩
        refine ⟨hl, fun p hp2 => ?_⟩
        rcases hp2 with hpa | hptl
        · rw [hpa]
          exact hb a (Or.inl rfl)
        · exact htl.2 p hptl

theorem forall_mem_decode_lt (d s c : ℕ) (hc : c < (List.replicate d s).prod) :
    ∀ a ∈ decode (List.replicate d s) c, a < s := by
  intro a ha
  obtain ⟨i, hi, rfl⟩ := List.getElem_of_mem ha
  have hlen : i < ((decode (List.replicate d s) c).zip (List.replicate d s)).length := by
    simp only [List.length_zip, decode_length, List.length_replicate]
    simp only [decode_length, List.length_replicate] at hi
    omega
  have hmem := List.getElem_mem hlen
  rw [List.getElem_zip, List.getElem_replicate] at hmem
  exact decode_lt (List.replicate d s) c hc _ hmem

theorem range_split_at (d k : ℕ) (hk : k < d) :
    List.range d = List.range k ++ k :: ((List.range (d - k - 1)).map fun j => k + 1 + j) := by
  conv_lhs => rw [show d = k + (1 + (d - k - 1)) from by omega]
  rw [List.range_add, List.range_add, show List.range 1 = [0] from rfl]
  simp only [List.map_map, List.map_cons, List.map_nil, List.cons_append, List.nil_append,
    List.append_assoc, Nat.add_zero, List.singleton_append]
  congr 1
  congr 1
  apply List.map_congr_left
  intro j _
  simp only [Function.comp_def]
  omega

theorem getD_mem_of_lt {l : List ℕ} {i : ℕ} (h : i < l.length) : l.getD i 0 ∈ l := by
  rw [List.getD_eq_getElem?_getD, List.getElem?_eq_getElem h]
  exact List.getElem_mem h

theorem coreOut_unit_translation (d k : ℕ) (hk : k < d) (bg : ℚ) :
    coreOut .lin ⟨.f64, List.replicate d 6, List.replicate (List.replicate d 6).prod 2⟩ bg d
      (eyeFlat d)
      (negVec ((List.range d).map fun j => if j = k then (2 : ℚ)/3 else 0))
      (List.replicate d 6) =
    (List.range (List.replicate d 6).prod).map fun c =>
      if (decode (List.replicate d 6) c).getD k 0 = 0
      then (1 - 1/3) * bg + 1/3 * 2 else 2 := by
  unfold coreOut
  rw [transposeFlat_eye]
  apply List.map_congr_left
  intro c hc
  rw [List.mem_range] at hc
  set idx := decode (List.replicate d 6) c with hidx
  have hlenidx : idx.length = d := by
    rw [hidx, decode_length, List.length_replicate]
  have hent : ∀ a ∈ idx, a < 6 := forall_mem_decode_lt d 6 c hc
  have hm6 : idx.getD k 0 < 6 := hent _ (getD_mem_of_lt (by omega))
  rw [sampleCoord_eye, negVec, List.map_map]
  -- first collapse the offset-list lookups, then split the axis range at `k`
  have hs1 : ((List.range d).map fun i => ((idx.getD i 0 : ℕ) : ℚ) +
      ((List.range d).map ((fun x => -x) ∘ fun j => if j = k then (2 : ℚ)/3 else 0)).getD i 0) =
      (List.range d).map fun i =>
        ((idx.getD i 0 : ℕ) : ℚ) + -(if i = k then (2 : ℚ)/3 else 0) := by
    apply List.map_congr_left
    intro i hi
    rw [List.mem_range] at hi
    rw [getD_range_map, if_pos hi]
    rfl
  have hs2 : ((List.range d).map fun i =>
      ((idx.getD i 0 : ℕ) : ℚ) + -(if i = k then (2 : ℚ)/3 else 0)) =
      castIntQ ((idx.take k).map Int.ofNat) ++
        (((idx.getD k 0 : ℕ) : ℚ) + -(2/3)) :: castIntQ ((idx.drop (k + 1)).map Int.ofNat) := by
    rw [range_split_at d k hk, List.map_append, List.map_cons]
    congr 1
    · rw [castIntQ_ofNat, ← map_range_getD_f 0 Nat.cast k (idx.take k)
        (by rw [List.length_take]; omega)]
      apply List.map_congr_left
      intro i hi
      rw [List.mem_range] at hi
      rw [if_neg (by omega), getD_take idx 0 k i hi]
      simp
    · congr 1
      · rw [if_pos rfl]
      · rw [castIntQ_ofNat, ← map_range_getD_f 0 Nat.cast (d - k - 1) (idx.drop (k + 1))
          (by rw [List.length_drop]; omega)]
        rw [List.map_map]
        apply List.map_congr_left
        intro j hj
        rw [List.mem_range] at hj
        simp only [Function.comp_def]
        rw [if_neg (by omega), getD_drop idx 0 (k + 1) j]
        simp
  rw [hs1, hs2, interp_lin_split]
  have hcast : ((idx.getD k 0 : ℕ) : ℚ) = (((idx.getD k 0 : ℕ) : ℤ) : ℚ) :=
    (Int.cast_natCast _).symm
  have hfloor : ⌊((idx.getD k 0 : ℕ) : ℚ) + -(2/3)⌋ = (idx.getD k 0 : ℤ) - 1 := by
    rw [hcast, Int.floor_int_add, show ⌊(-(2/3) : ℚ)⌋ = -1 from by norm_num]
    omega
  have hfract : Int.fract (((idx.getD k 0 : ℕ) : ℚ) + -(2/3)) = 1/3 := by
    rw [hcast, Int.fract_int_add, Int.fract]
    norm_num
  rw [hfloor, hfract, sub_add_cancel, fetchAt_uniform, fetchAt_uniform]
  have hmemP : ∀ a ∈ (idx.take k).map Int.ofNat, 0 ≤ a ∧ a < (6 : ℤ) := by
    intro a ha
    obtain ⟨n, hn, rfl⟩ := List.mem_map.mp ha
    exact ⟨Int.ofNat_nonneg n, Int.ofNat_lt.mpr (hent n (List.take_subset k idx hn))⟩
  have hmemS : ∀ a ∈ (idx.drop (k + 1)).map Int.ofNat, 0 ≤ a ∧ a < (6 : ℤ) := by
    intro a ha
    obtain ⟨n, hn, rfl⟩ := List.mem_map.mp ha
    exact ⟨Int.ofNat_nonneg n, Int.ofNat_lt.mpr (hent n (List.drop_subset (k + 1) idx hn))⟩
  have hlenall : ((idx.take k).map Int.ofNat).length +
      (((idx.drop (k + 1)).map Int.ofNat).length + 1) = d := by
    simp only [List.length_map, List.length_take, List.length_drop]
    omega
  rcases Nat.eq_zero_or_pos (idx.getD k 0) with hm0 | hm1
  · -- boundary slice: the floor tap is out of range
    rw [if_neg ?_, if_pos ?_, if_pos hm0]
    case _ =>
      rw [inBounds_replicate]
      refine ⟨by simpa using hlenall, fun a ha => ?_⟩
      rcases List.mem_append.mp ha with hpre | hrest
      · exact hmemP a hpre
      · rcases List.mem_cons.mp hrest with rfl | hsuf
        · rw [hm0]
          norm_num
        · exact hmemS a hsuf
    case _ =>
      intro hb
      have hneg := ((inBounds_replicate _ d 6).mp hb).2 ((idx.getD k 0 : ℤ) - 1) (by
        apply List.mem_append.mpr
        right
        exact List.mem_cons_self _ _)
      rw [hm0] at hneg
      norm_num at hneg
  · -- interior: both taps are in range, the blend collapses to the value
    rw [if_pos ?_, if_pos ?_, if_neg (by omega)]
    · norm_num
    case _ =>
      rw [inBounds_replicate]
      refine ⟨by simpa using hlenall, fun a ha => ?_⟩
      rcases List.mem_append.mp ha with hpre | hrest
      · exact hmemP a hpre
      · rcases List.mem_cons.mp hrest with rfl | hsuf
        · exact ⟨by positivity, by exact_mod_cast hm6⟩
        · exact hmemS a hsuf
    case _ =>
      rw [inBounds_replicate]
      refine ⟨by simpa using hlenall, fun a ha => ?_⟩
      rcases List.mem_append.mp ha with hpre | hrest
      · exact hmemP a hpre
      · rcases List.mem_cons.mp hrest with rfl | hsuf
        · have h6 : (idx.getD k 0 : ℤ) < 6 := by exact_mod_cast hm6
          omega
        · exact hmemS a hsuf

/-- **C5.** For every dimension `d ∈ [1,5]`: transforming the uniform image of
value 2 (shape `6^d`) by a translation of `2/3` along axis `k` with
`background_value = 15` and linear interpolation yields `1/3·2 + 2/3·15` in the
boundary slice (`idx k = 0`) and exactly 2 everywhere else. -/
theorem fractional_translation_blend (d k : ℕ) (h1 : 1 ≤ d) (h5 : d ≤ 5) (hk : k < d) :
    (transform ⟨.f64, List.replicate d 6, List.replicate (List.replicate d 6).prod 2⟩
        (eyeArr d)
        ⟨(List.range d).map fun j => if j = k then (2 : ℚ)/3 else 0, none⟩
        "linear" none none none 15).ret =
      .ok ⟨.f64, List.replicate d 6,
        (List.range (List.replicate d 6).prod).map fun c =>
          if (decode (List.replicate d 6) c).getD k 0 = 0
          then 1/3 * 2 + 2/3 * 15 else 2⟩ := by
  rw [transform_origin_none _ (eyeArr d) _ "linear" none none 15
    (by simp [eyeArr]) (by simp)]
  dsimp only
  rw [show workingDType .f64 = .f64 from rfl]
  rw [transformRest_tail_eq _ (eyeArr d) _ "linear"
    (defaultOrigin (List.replicate d 6)) none none 15 .f64
    ⟨.f64, List.replicate d 6, List.replicate (List.replicate d 6).prod 0⟩ .lin
    ((List.range d).map fun j => if j = k then (2 : ℚ)/3 else 0)
    (Or.inl ⟨rfl, rfl⟩) (Or.inl ⟨rfl, rfl⟩) (Or.inl ⟨rfl, rfl⟩)]
  rw [transformTail_matrix (eyeArr d) _ _ none 15 .f64
    ⟨.f64, List.replicate d 6, List.replicate (List.replicate d 6).prod 2⟩
    ⟨.f64, List.replicate d 6, List.replicate (List.replicate d 6).prod 0⟩ .lin
    _ d (by simp) rfl (eyeFlat_length d)
    (by rw [show (eyeArr d).data = eyeFlat d from rfl, detFlat_eye]; norm_num)
    (by simp [defaultOrigin]) (by simp) (by simp) rfl]
  rw [show (eyeArr d).data = eyeFlat d from rfl, invFlat_eye]
  rw [combinedOf_eye d _ _ (by simp) (by simp [defaultOrigin])]
  rw [coreOut_unit_translation d k hk 15]
  simp only [Except.ok.injEq, NdArr.mk.injEq, true_and]
  apply List.map_congr_left
  intro c _
  split <;> norm_num

/-- The direct Catmull-Rom evaluation the test-suite uses as its oracle
(`catmull_rom_interp` in `test_cubic_interpolation`): polynomial in the local
parameter `x` against the four neighbouring samples. -/
def catmullRomManual (p0 p1 p2 p3 x : ℚ) : ℚ :=
  (-(1/2) * p0 + (3/2) * p1 - (3/2) * p2 + (1/2) * p3) * x ^ 3 +
  (p0 - (5/2) * p1 + 2 * p2 - (1/2) * p3) * x ^ 2 +
  (-(1/2) * p0 + (1/2) * p2) * x + p1

/-- The 1-D test grid: size 9, zero everywhere except value `13.3` at index 3. -/
def spikeImage : List ℚ := [0, 0, 0, 133/10, 0, 0, 0, 0, 0]

/-- The spike grid zero-padded by 3 on each side, as the test builds it. -/
def spikePadded : List ℚ := [0, 0, 0] ++ spikeImage ++ [0, 0, 0]

set_option maxHeartbeats 1600000 in
set_option maxRecDepth 4000 in
/-- **C6.** For the 1-D grid of size 9 that is zero except for value `13.3` at
index 3, the cubic transform by translation `1.7` produces at every output
index exactly the direct evaluation of the four Catmull-Rom weights at local
parameter `x = 0.3` against the zero-padded 4-sample neighbourhood. -/
theorem cubic_spike_matches_catmull_rom :
    (transform ⟨.f64, [9], spikeImage⟩ (eyeArr 1) ⟨[17/10], none⟩ "cubic" none none none 0).ret =
      .ok ⟨.f64, [9], (List.range 9).map fun i =>
        catmullRomManual (spikePadded.getD i 0) (spikePadded.getD (i+1) 0)
          (spikePadded.getD (i+2) 0) (spikePadded.getD (i+3) 0) (3/10)⟩ := by
  rw [transform_origin_none _ (eyeArr 1) _ "cubic" none none 0 (by simp [eyeArr]) (by simp)]
  dsimp only
  rw [show workingDType .f64 = .f64 from rfl]
  rw [transformRest_tail_eq _ (eyeArr 1) _ "cubic" (defaultOrigin [9]) none none 0 .f64
    ⟨.f64, [9], List.replicate ([9] : List ℕ).prod 0⟩ .cub [17/10]
    (Or.inl ⟨rfl, rfl⟩) (Or.inr ⟨rfl, rfl⟩) (Or.inl ⟨rfl, rfl⟩)]
  rw [transformTail_matrix (eyeArr 1) _ _ none 0 .f64
    ⟨.f64, [9], spikeImage⟩ ⟨.f64, [9], List.replicate ([9] : List ℕ).prod 0⟩ .cub
    [17/10] 1 (by simp) rfl (eyeFlat_length 1)
    (by rw [show (eyeArr 1).data = eyeFlat 1 from rfl, detFlat_eye]; norm_num)
    (by simp [defaultOrigin]) (by simp) (by simp) rfl]
  rw [show (eyeArr 1).data = eyeFlat 1 from rfl, invFlat_eye]
  rw [combinedOf_eye 1 _ _ (by simp) (by simp [defaultOrigin])]
  simp only [coreOut, transposeFlat_eye, Except.ok.injEq, NdArr.mk.injEq, true_and]
  rw [show (([9] : List ℕ)).prod = 9 from rfl]
  apply List.map_congr_left
  intro cc hcc
  rw [List.mem_range] at hcc
  interval_cases cc <;>
    norm_num [decode, sampleCoord, eyeFlat, negVec, interp, sumTaps, tapsProd,
      axisTaps, fetchAt, inBounds, encode, catmullRomManual, spikeImage, spikePadded,
      Int.fract, List.range_succ, Int.toNat]

/-! ## Error-path invariants of the wrapper -/

theorem transformTail_ok_or_untouched (lin : NdArr) (t : ArgVec) (ov : List ℚ)
    (out? : Option NdArr) (bg : ℚ) (dt : DType) (inputC outputArr : NdArr) (kern : Kern)
    (tW : List ℚ) :
    (∃ r, (transformTail lin t ov out? bg dt inputC outputArr kern tW).ret = .ok r) ∨
    ((transformTail lin t ov out? bg dt inputC outputArr kern tW).outputFinal =
        out?.map (·.data) ∧
      (transformTail lin t ov out? bg dt inputC outputArr kern tW).sampled = 0) := by
  simp only [transformTail]
  rcases hinv : npLinalgInv lin with e1 | linInv
  · right
    exact ⟨rfl, rfl⟩
  · dsimp only
    rcases hcore : coreTransform kern
        (addLast (matVecLast linInv (zipSub (negVec tW) ov)) ov)
        (transposeArr linInv) inputC outputArr bg with e2 | res
    · right
      exact ⟨rfl, rfl⟩
    · left
      exact ⟨res, rfl⟩

theorem transformRest_ok_or_untouched (inp lin : NdArr) (t : ArgVec) (order : String)
    (ov : List ℚ) (out? : Option NdArr) (oio : Option (List ℚ)) (bg : ℚ) (dt : DType) :
    (∃ r, (transformRest inp lin t order ov out? oio bg dt).ret = .ok r) ∨
    ((transformRest inp lin t order ov out? oio bg dt).outputFinal = out?.map (·.data) ∧
      (transformRest inp lin t order ov out? oio bg dt).sampled = 0) := by
  simp only [transformRest]
  split
  · right
    exact ⟨rfl, rfl⟩
  · split
    · right
      exact ⟨rfl, rfl⟩
    · split
      · split
        · right
          exact ⟨rfl, rfl⟩
        · exact transformTail_ok_or_untouched _ _ _ _ _ _ _ _ _ _
      · exact transformTail_ok_or_untouched _ _ _ _ _ _ _ _ _ _

theorem transform_ok_or_untouched (inp lin : NdArr) (t : ArgVec) (order : String)
    (origin : Option ArgVec) (out? : Option NdArr) (oio : Option (List ℚ)) (bg : ℚ) :
    (∃ r, (transform inp lin t order origin out? oio bg).ret = .ok r) ∨
    ((transform inp lin t order origin out? oio bg).outputFinal = out?.map (·.data) ∧
      (transform inp lin t order origin out? oio bg).sampled = 0) := by
  simp only [transform]
  split
  · right
    exact ⟨rfl, rfl⟩
  · split
    · right
      exact ⟨rfl, rfl⟩
    · rcases origin with _ | o
      · dsimp only
        exact transformRest_ok_or_untouched _ _ _ _ _ _ _ _ _
      · dsimp only
        split
        · right
          exact ⟨rfl, rfl⟩
        · exact transformRest_ok_or_untouched _ _ _ _ _ _ _ _ _

/-- **C2.** Every call to `transform` that raises an error leaves a
caller-supplied, pre-filled destination grid completely unchanged, and the
error is raised before any sampling occurs (no output cell is computed). -/
theorem error_leaves_output_untouched (inp lin : NdArr) (t : ArgVec) (order : String)
    (origin : Option ArgVec) (out? : Option NdArr) (oio : Option (List ℚ)) (bg : ℚ)
    (e : PyErr) (h : (transform inp lin t order origin out? oio bg).ret = .error e) :
    (transform inp lin t order origin out? oio bg).outputFinal = out?.map (·.data) ∧
    (transform inp lin t order origin out? oio bg).sampled = 0 := by
  rcases transform_ok_or_untouched inp lin t order origin out? oio bg with ⟨r, hr⟩ | hok
  · rw [h] at hr
    cases hr
  · exact hok

theorem error_leaves_output_untouched_witness :
    (transform ⟨.f64, [1], [5]⟩ ⟨.f64, [2, 2], [1, 0, 0, 1]⟩ ⟨[0], none⟩ "linear"
        none (some ⟨.f64, [1], [9]⟩) none 0).outputFinal =
      (some (⟨.f64, [1], [9]⟩ : NdArr)).map (·.data) ∧
    (transform ⟨.f64, [1], [5]⟩ ⟨.f64, [2, 2], [1, 0, 0, 1]⟩ ⟨[0], none⟩ "linear"
        none (some ⟨.f64, [1], [9]⟩) none 0).sampled = 0 :=
  error_leaves_output_untouched _ _ _ _ _ _ _ _ (.valueError .linShape) rfl

/-! ## The resolved origin instrumentation -/

theorem transformTail_originUsed (lin : NdArr) (t : ArgVec) (ov : List ℚ)
    (out? : Option NdArr) (bg : ℚ) (dt : DType) (inputC outputArr : NdArr) (kern : Kern)
    (tW : List ℚ) :
    (transformTail lin t ov out? bg dt inputC outputArr kern tW).originUsed = some ov := by
  simp only [transformTail]
  rcases hinv : npLinalgInv lin with e1 | linInv
  · rfl
  · dsimp only
    rcases hcore : coreTransform kern
        (addLast (matVecLast linInv (zipSub (negVec tW) ov)) ov)
        (transposeArr linInv) inputC outputArr bg with e2 | res
    · rfl
    · rfl

theorem transformRest_originUsed (inp lin : NdArr) (t : ArgVec) (order : String)
    (ov : List ℚ) (out? : Option NdArr) (oio : Option (List ℚ)) (bg : ℚ) (dt : DType) :
    (transformRest inp lin t order ov out? oio bg dt).originUsed = some ov := by
  simp only [transformRest]
  split
  · rfl
  · split
    · rfl
    · split
      · split
        · rfl
        · exact transformTail_originUsed _ _ _ _ _ _ _ _ _ _
      · exact transformTail_originUsed _ _ _ _ _ _ _ _ _ _

/-- **C8.** Whenever the `origin` argument is unset (and the earlier
linear-shape and translation checks pass, so that origin resolution is
reached), the wrapper uses the default origin `(shape[axis] - 1) / 2`
computed independently per axis. -/
theorem default_origin_grid_center (inp lin : NdArr) (t : ArgVec) (order : String)
    (out? : Option NdArr) (oio : Option (List ℚ)) (bg : ℚ)
    (hlin : ∀ v ∈ lin.shape, v = inp.shape.length)
    (ht : t.vals.length = inp.shape.length) :
    (transform inp lin t order none out? oio bg).originUsed =
      some (inp.shape.map fun x => ((Nat.cast x : ℚ) - 1) / 2) := by
  rw [transform_origin_none inp lin t order out? oio bg hlin ht,
    transformRest_originUsed]
  rfl

theorem default_origin_grid_center_witness :
    (∀ v ∈ (eyeArr 2).shape, v = (⟨.f64, [2, 3], List.replicate 6 1⟩ : NdArr).shape.length) ∧
    (transform ⟨.f64, [2, 3], List.replicate 6 1⟩ (eyeArr 2) ⟨[0, 0], none⟩ "linear"
        none none none 0).originUsed =
      some ([2, 3].map fun x => ((Nat.cast x : ℚ) - 1) / 2) :=
  ⟨by decide, default_origin_grid_center ⟨.f64, [2, 3], List.replicate 6 1⟩ (eyeArr 2)
    ⟨[0, 0], none⟩ "linear" none none 0 (by decide) rfl⟩

/-! ## The singular-transform path -/

theorem npLinalgInv_singular (dt : DType) (d : ℕ) (v : List ℚ) (hlen : v.length = d * d)
    (hdet : detFlat d v = 0) :
    npLinalgInv ⟨dt, [d, d], v⟩ = .error .linAlgError := by
  have htake : v.take (d * d) = v := by rw [← hlen, List.take_length]
  have hr1 : List.range 1 = [0] := rfl
  simp [npLinalgInv, htake, hdet, hr1]

theorem transformTail_singular (lin : NdArr) (t : ArgVec) (ov : List ℚ) (out? : Option NdArr)
    (bg : ℚ) (dt : DType) (inputC outputArr : NdArr) (kern : Kern) (tW : List ℚ) (d : ℕ)
    (hsh : lin.shape = [d, d]) (hlen : lin.data.length = d * d)
    (hdet : detFlat d lin.data = 0) :
    transformTail lin t ov out? bg dt inputC outputArr kern tW =
      ⟨.error .linAlgError, if t.arrDt = some dt then tW else t.vals,
        out?.map (·.data), some ov, none, 0⟩ := by
  obtain ⟨ldt, lsh, ldata⟩ := lin
  simp only at hsh hlen hdet
  subst hsh
  simp only [transformTail, npLinalgInv_singular ldt d ldata hlen hdet]

theorem transformRest_singular (inp lin : NdArr) (t : ArgVec) (order : String) (ov : List ℚ)
    (out? : Option NdArr) (oio : Option (List ℚ)) (bg : ℚ) (dt : DType) (tW : List ℚ) (d : ℕ)
    (hd : inp.shape.length = d)
    (hsh : lin.shape = [d, d]) (hlen : lin.data.length = d * d)
    (hdet : detFlat d lin.data = 0)
    (hout : out? = none ∨ ∃ oa, out? = some oa ∧ oa.shape.length = d ∧ oa.dt = dt)
    (horder : order = "linear" ∨ order = "cubic")
    (htW : (oio = none ∧ tW = t.vals) ∨
      (∃ u, oio = some u ∧ u.length = d ∧ tW = zipSub t.vals u)) :
    transformRest inp lin t order ov out? oio bg dt =
      ⟨.error .linAlgError, if t.arrDt = some dt then tW else t.vals,
        out?.map (·.data), some ov, none, 0⟩ := by
  have hkern : ∃ kern, (order = "linear" ∧ kern = Kern.lin) ∨
      (order = "cubic" ∧ kern = Kern.cub) := by
    rcases horder with h | h
    · exact ⟨.lin, Or.inl ⟨h, rfl⟩⟩
    · exact ⟨.cub, Or.inr ⟨h, rfl⟩⟩
  obtain ⟨kern, hkern⟩ := hkern
  have houtArr : ∃ outputArr, (out? = none ∧
      outputArr = (⟨dt, inp.shape, List.replicate inp.shape.prod 0⟩ : NdArr)) ∨
      (out? = some outputArr ∧ outputArr.shape.length = inp.shape.length ∧
        outputArr.dt = dt) := by
    rcases hout with h | ⟨oa, h, h1, h2⟩
    · exact ⟨_, Or.inl ⟨h, rfl⟩⟩
    · exact ⟨oa, Or.inr ⟨h, by rw [hd]; exact h1, h2⟩⟩
  obtain ⟨outputArr, houtArr⟩ := houtArr
  have htW2 : (oio = none ∧ tW = t.vals) ∨
      (∃ u, oio = some u ∧ u.length = inp.shape.length ∧ tW = zipSub t.vals u) := by
    rcases htW with h | ⟨u, h1, h2, h3⟩
    · exact Or.inl h
    · exact Or.inr ⟨u, h1, by rw [hd]; exact h2, h3⟩
  rw [transformRest_tail_eq inp lin t order ov out? oio bg dt outputArr kern tW
    houtArr hkern htW2]
  exact transformTail_singular lin t ov out? bg dt _ outputArr kern tW d hsh hlen hdet

/-- **C3.** For every non-invertible (singular) linear transformation, and an
otherwise well-formed call, `transform` fails with the distinct
`numpy.linalg.LinAlgError`, raised before any sampling: no output cell is
computed and the destination grid is untouched. -/
theorem singular_raises_linAlgError (inp lin : NdArr) (t : ArgVec) (order : String)
    (origin : Option ArgVec) (out? : Option NdArr) (oio : Option (List ℚ)) (bg : ℚ) (d : ℕ)
    (hd : inp.shape.length = d)
    (hsh : lin.shape = [d, d]) (hlen : lin.data.length = d * d)
    (hdet : detFlat d lin.data = 0)
    (ht : t.vals.length = d)
    (horig : origin = none ∨ ∃ o, origin = some o ∧ o.vals.length = d)
    (hout : out? = none ∨ ∃ oa, out? = some oa ∧ oa.shape.length = d ∧
      oa.dt = workingDType inp.dt)
    (horder : order = "linear" ∨ order = "cubic")
    (hoio : oio = none ∨ ∃ u, oio = some u ∧ u.length = d) :
    (transform inp lin t order origin out? oio bg).ret = .error .linAlgError ∧
    (transform inp lin t order origin out? oio bg).outputFinal = out?.map (·.data) ∧
    (transform inp lin t order origin out? oio bg).sampled = 0 := by
  have hlin : ∀ v ∈ lin.shape, v = inp.shape.length := by
    rw [hsh, hd]
    intro v hv
    rcases List.mem_cons.mp hv with rfl | hv2
    · rfl
    · simpa using hv2
  have htW : ((oio = none ∧ t.vals = t.vals) ∨
      (∃ u, oio = some u ∧ u.length = d ∧ zipSub t.vals u = zipSub t.vals u)) ∨ True :=
    Or.inr trivial
  rcases hoio with rfl | ⟨u, rfl, hu⟩ <;> rcases horig with rfl | ⟨o, rfl, ho⟩
  · rw [transform_origin_none inp lin t order out? none bg hlin (by rw [ht, hd]),
      transformRest_singular inp lin t order _ out? none bg _ t.vals d hd hsh hlen hdet
        hout horder (Or.inl ⟨rfl, rfl⟩)]
    exact ⟨rfl, rfl, rfl⟩
  · rw [transform_origin_some inp lin t order o out? none bg hlin (by rw [ht, hd])
      (by rw [ho, hd]),
      transformRest_singular inp lin t order _ out? none bg _ t.vals d hd hsh hlen hdet
        hout horder (Or.inl ⟨rfl, rfl⟩)]
    exact ⟨rfl, rfl, rfl⟩
  · rw [transform_origin_none inp lin t order out? (some u) bg hlin (by rw [ht, hd]),
      transformRest_singular inp lin t order _ out? (some u) bg _ (zipSub t.vals u) d hd
        hsh hlen hdet hout horder (Or.inr ⟨u, rfl, hu, rfl⟩)]
    exact ⟨rfl, rfl, rfl⟩
  · rw [transform_origin_some inp lin t order o out? (some u) bg hlin (by rw [ht, hd])
      (by rw [ho, hd]),
      transformRest_singular inp lin t order _ out? (some u) bg _ (zipSub t.vals u) d hd
        hsh hlen hdet hout horder (Or.inr ⟨u, rfl, hu, rfl⟩)]
    exact ⟨rfl, rfl, rfl⟩

theorem singular_raises_linAlgError_witness :
    detFlat 1 [(0 : ℚ)] = 0 ∧
    (transform ⟨.f64, [1], [5]⟩ ⟨.f64, [1, 1], [0]⟩ ⟨[0], none⟩ "linear"
        none (some ⟨.f64, [1], [9]⟩) none 0).ret = .error .linAlgError ∧
    (transform ⟨.f64, [1], [5]⟩ ⟨.f64, [1, 1], [0]⟩ ⟨[0], none⟩ "linear"
        none (some ⟨.f64, [1], [9]⟩) none 0).outputFinal =
      (some (⟨.f64, [1], [9]⟩ : NdArr)).map (·.data) ∧
    (transform ⟨.f64, [1], [5]⟩ ⟨.f64, [1, 1], [0]⟩ ⟨[0], none⟩ "linear"
        none (some ⟨.f64, [1], [9]⟩) none 0).sampled = 0 :=
  ⟨by norm_num [detFlat, minorFlat],
    singular_raises_linAlgError ⟨.f64, [1], [5]⟩ ⟨.f64, [1, 1], [0]⟩ ⟨[0], none⟩ "linear"
      none (some ⟨.f64, [1], [9]⟩) none 0 1 rfl rfl rfl
      (by norm_num [detFlat, minorFlat]) rfl (Or.inl rfl)
      (Or.inr ⟨_, rfl, rfl, rfl⟩) (Or.inl rfl) (Or.inl rfl)⟩

/-! ## In-place mutation of the caller's translation array -/

theorem zipSub_getD (a b : List ℚ) (j : ℕ) (hja : j < a.length) (hjb : j < b.length) :
    (zipSub a b).getD j 0 = a.getD j 0 - b.getD j 0 :=
  getD_zipWith _ a b j hja hjb

/-- **C9.** When `output_image_origin` is given and the caller's `translation`
argument is a numpy array whose dtype already equals the working precision,
`transform` subtracts `output_image_origin` from the caller's translation
array in place: the caller-visible buffer ends as `translation − u` (hence
differs from the original whenever `u` has a nonzero component), and this
mutation persists even when the call then raises on a singular linear
transformation. -/
theorem translation_mutated_in_place (inp lin : NdArr) (t : ArgVec) (order : String)
    (origin : Option ArgVec) (out? : Option NdArr) (u : List ℚ) (bg : ℚ) (d j : ℕ)
    (hd : inp.shape.length = d)
    (hsh : lin.shape = [d, d]) (hlen : lin.data.length = d * d)
    (hdet : detFlat d lin.data = 0)
    (ht : t.vals.length = d)
    (harr : t.arrDt = some (workingDType inp.dt))
    (horig : origin = none ∨ ∃ o, origin = some o ∧ o.vals.length = d)
    (hout : out? = none ∨ ∃ oa, out? = some oa ∧ oa.shape.length = d ∧
      oa.dt = workingDType inp.dt)
    (horder : order = "linear" ∨ order = "cubic")
    (hu : u.length = d) (hj : j < d) (hju : u.getD j 0 ≠ 0) :
    (transform inp lin t order origin out? (some u) bg).translationFinal = zipSub t.vals u ∧
    (transform inp lin t order origin out? (some u) bg).translationFinal ≠ t.vals ∧
    (transform inp lin t order origin out? (some u) bg).ret = .error .linAlgError := by
  have hlin : ∀ v ∈ lin.shape, v = inp.shape.length := by
    rw [hsh, hd]
    intro v hv
    rcases List.mem_cons.mp hv with rfl | hv2
    · rfl
    · simpa using hv2
  have hne : zipSub t.vals u ≠ t.vals := by
    intro heq
    have h0 := congrArg (fun l => l.getD j 0) heq
    simp only at h0
    rw [zipSub_getD t.vals u j (by omega) (by omega)] at h0
    apply hju
    linarith [h0]
  have hmain : (transform inp lin t order origin out? (some u) bg) =
      ⟨.error .linAlgError,
        if t.arrDt = some (workingDType inp.dt) then zipSub t.vals u else t.vals,
        out?.map (·.data), some (match origin with
          | none => defaultOrigin inp.shape
          | some o => o.vals), none, 0⟩ := by
    rcases horig with rfl | ⟨o, rfl, ho⟩
    · rw [transform_origin_none inp lin t order out? (some u) bg hlin (by rw [ht, hd]),
        transformRest_singular inp lin t order _ out? (some u) bg _ (zipSub t.vals u) d hd
          hsh hlen hdet hout horder (Or.inr ⟨u, rfl, hu, rfl⟩)]
    · rw [transform_origin_some inp lin t order o out? (some u) bg hlin (by rw [ht, hd])
        (by rw [ho, hd]),
        transformRest_singular inp lin t order _ out? (some u) bg _ (zipSub t.vals u) d hd
          hsh hlen hdet hout horder (Or.inr ⟨u, rfl, hu, rfl⟩)]
  rw [hmain]
  refine ⟨?_, ?_, rfl⟩
  · show (if t.arrDt = some (workingDType inp.dt) then zipSub t.vals u else t.vals) =
      zipSub t.vals u
    rw [if_pos harr]
  · show (if t.arrDt = some (workingDType inp.dt) then zipSub t.vals u else t.vals) ≠ t.vals
    rw [if_pos harr]
    exact hne

theorem translation_mutated_in_place_witness :
    (transform ⟨.f64, [1], [5]⟩ ⟨.f64, [1, 1], [0]⟩ ⟨[7], some .f64⟩ "linear"
        none none (some [2]) 0).translationFinal = zipSub [7] [2] ∧
    (transform ⟨.f64, [1], [5]⟩ ⟨.f64, [1, 1], [0]⟩ ⟨[7], some .f64⟩ "linear"
        none none (some [2]) 0).translationFinal ≠ [7] ∧
    (transform ⟨.f64, [1], [5]⟩ ⟨.f64, [1, 1], [0]⟩ ⟨[7], some .f64⟩ "linear"
        none none (some [2]) 0).ret = .error .linAlgError :=
  translation_mutated_in_place ⟨.f64, [1], [5]⟩ ⟨.f64, [1, 1], [0]⟩ ⟨[7], some .f64⟩
    "linear" none none [2] 0 1 0 rfl rfl rfl (by norm_num [detFlat, minorFlat]) rfl rfl
    (Or.inl rfl) (Or.inl rfl) (Or.inl rfl) rfl (by omega) (by norm_num)

/-! ## Which mismatches raise `ValueError` -/

/-- The shape-related `ValueError` kinds (as opposed to the dtype and order
kinds). -/
def shapeKinds : List ValErrKind :=
  [.linShape, .translationLen, .originLen, .outputDim, .outputOriginLen]

/-- All five dimensionality agreements the wrapper checks. -/
def wellShaped (inp lin : NdArr) (t : ArgVec) (origin : Option ArgVec)
    (out? : Option NdArr) (oio : Option (List ℚ)) : Prop :=
  (∀ v ∈ lin.shape, v = inp.shape.length) ∧
  t.vals.length = inp.shape.length ∧
  (∀ o, origin = some o → o.vals.length = inp.shape.length) ∧
  (∀ oa, out? = some oa → oa.shape.length = inp.shape.length) ∧
  (∀ u, oio = some u → u.length = inp.shape.length)

theorem npLinalgInv_error_kind (a : NdArr) (e : PyErr) (h : npLinalgInv a = .error e) :
    e = .linAlgError := by
  simp only [npLinalgInv] at h
  split at h
  · cases h; rfl
  · split at h
    · cases h; rfl
    · split at h
      · cases h; rfl
      · cases h

theorem coreTransform_error_kind (k : Kern) (offset matT input output : NdArr) (bg : ℚ)
    (e : PyErr) (h : coreTransform k offset matT input output bg = .error e) :
    e = .coreError := by
  simp only [coreTransform] at h
  split at h
  · cases h
  · cases h; rfl

theorem transformTail_ret_not_valueError (lin : NdArr) (t : ArgVec) (ov : List ℚ)
    (out? : Option NdArr) (bg : ℚ) (dt : DType) (inputC outputArr : NdArr) (kern : Kern)
    (tW : List ℚ) (k : ValErrKind) :
    (transformTail lin t ov out? bg dt inputC outputArr kern tW).ret ≠
      .error (.valueError k) := by
  simp only [transformTail]
  rcases hinv : npLinalgInv lin with e1 | linInv
  · dsimp only
    intro hc
    simp only [Except.error.injEq] at hc
    rw [npLinalgInv_error_kind lin e1 hinv] at hc
    cases hc
  · dsimp only
    rcases hcore : coreTransform kern
        (addLast (matVecLast linInv (zipSub (negVec tW) ov)) ov)
        (transposeArr linInv) inputC outputArr bg with e2 | res
    · intro hc
      simp only [Except.error.injEq] at hc
      rw [coreTransform_error_kind _ _ _ _ _ _ _ hcore] at hc
      cases hc
    · intro hc
      cases hc

theorem transformRest_valueError_or (inp lin : NdArr) (t : ArgVec) (order : String)
    (ov : List ℚ) (out? : Option NdArr) (oio : Option (List ℚ)) (bg : ℚ) (dt : DType) :
    (∃ k, (transformRest inp lin t order ov out? oio bg dt).ret = .error (.valueError k)) ∨
    ((∀ oa, out? = some oa → oa.shape.length = inp.shape.length) ∧
      (∀ u, oio = some u → u.length = inp.shape.length)) := by
  simp only [transformRest]
  rcases out? with _ | oi
  · dsimp only
    split
    · exact Or.inl ⟨.orderName, by
        next e heq =>
          split at heq
          · cases heq
          · split at heq
            · cases heq
            · cases heq
              rfl⟩
    · rcases oio with _ | u
      · exact Or.inr ⟨by simp, by simp⟩
      · dsimp only
        split
        · exact Or.inl ⟨.outputOriginLen, rfl⟩
        · next hu =>
          refine Or.inr ⟨by simp, fun u2 hu2 => ?_⟩
          cases hu2
          omega
  · dsimp only
    split
    · next k heq => exact Or.inl ⟨k, rfl⟩
    · next outputArr heq =>
      have hdim : oi.shape.length = inp.shape.length := by
        by_contra hc
        rw [if_pos hc] at heq
        cases heq
      split
      · exact Or.inl ⟨.orderName, by
          next e heq2 =>
            split at heq2
            · cases heq2
            · split at heq2
              · cases heq2
              · cases heq2
                rfl⟩
      · rcases oio with _ | u
        · exact Or.inr ⟨fun oa hoa => by cases hoa; omega, by simp⟩
        · dsimp only
          split
          · exact Or.inl ⟨.outputOriginLen, rfl⟩
          · next hu =>
            refine Or.inr ⟨fun oa hoa => by cases hoa; omega, fun u2 hu2 => ?_⟩
            cases hu2
            omega

theorem transform_valueError_or (inp lin : NdArr) (t : ArgVec) (order : String)
    (origin : Option ArgVec) (out? : Option NdArr) (oio : Option (List ℚ)) (bg : ℚ) :
    (∃ k, (transform inp lin t order origin out? oio bg).ret = .error (.valueError k)) ∨
    wellShaped inp lin t origin out? oio := by
  simp only [transform]
  split
  · exact Or.inl ⟨.linShape, rfl⟩
  · next h1 =>
    split
    · exact Or.inl ⟨.translationLen, rfl⟩
    · next h2 =>
      rcases origin with _ | o
      · dsimp only
        rcases transformRest_valueError_or inp lin t order (defaultOrigin inp.shape)
            out? oio bg (workingDType inp.dt) with ⟨k, hk⟩ | ⟨ho4, ho5⟩
        · exact Or.inl ⟨k, hk⟩
        · exact Or.inr ⟨not_not.mp h1, not_not.mp h2, by simp, ho4, ho5⟩
      · dsimp only
        split
        · exact Or.inl ⟨.originLen, rfl⟩
        · next h3 =>
          rcases transformRest_valueError_or inp lin t order o.vals
              out? oio bg (workingDType inp.dt) with ⟨k, hk⟩ | ⟨ho4, ho5⟩
          · exact Or.inl ⟨k, hk⟩
          · refine Or.inr ⟨not_not.mp h1, not_not.mp h2, fun o2 ho2 => ?_, ho4, ho5⟩
            cases ho2
            exact not_not.mp h3

theorem transformRest_no_shape_error (inp lin : NdArr) (t : ArgVec) (order : String)
    (ov : List ℚ) (out? : Option NdArr) (oio : Option (List ℚ)) (bg : ℚ) (dt : DType)
    (h4 : ∀ oa, out? = some oa → oa.shape.length = inp.shape.length)
    (h5 : ∀ u, oio = some u → u.length = inp.shape.length) :
    ∀ k, k ∈ shapeKinds →
      (transformRest inp lin t order ov out? oio bg dt).ret ≠ .error (.valueError k) := by
  intro k hk
  simp only [transformRest]
  have horder : ∀ e, (if order = "linear" then Except.ok Kern.lin
      else if order = "cubic" then Except.ok Kern.cub
      else Except.error (PyErr.valueError .orderName)) = .error e →
      e = PyErr.valueError .orderName := by
    intro e heq
    split at heq
    · cases heq
    · split at heq
      · cases heq
      · cases heq
        rfl
  rcases out? with _ | oi
  · dsimp only
    split
    · next e heq =>
      intro hc
      simp only [Except.error.injEq] at hc
      rw [horder e heq] at hc
      cases hc
      revert hk
      decide
    · rcases oio with _ | u
      · exact transformTail_ret_not_valueError _ _ _ _ _ _ _ _ _ _ k
      · dsimp only
        rw [if_neg (not_not_intro (h5 u rfl))]
        exact transformTail_ret_not_valueError _ _ _ _ _ _ _ _ _ _ k
  · dsimp only
    split
    · next k2 heq =>
      rw [if_neg (not_not_intro (h4 oi rfl))] at heq
      have hk2 : k2 = ValErrKind.outputDtype := by
        split at heq
        · cases heq
          rfl
        · cases heq
      intro hc
      simp only [Except.error.injEq, PyErr.valueError.injEq] at hc
      rw [← hc, hk2] at hk
      revert hk
      decide
    · next outputArr heq =>
      split
      · next e heq2 =>
        intro hc
        simp only [Except.error.injEq] at hc
        rw [horder e heq2] at hc
        cases hc
        revert hk
        decide
      · rcases oio with _ | u
        · exact transformTail_ret_not_valueError _ _ _ _ _ _ _ _ _ _ k
        · dsimp only
          rw [if_neg (not_not_intro (h5 u rfl))]
          exact transformTail_ret_not_valueError _ _ _ _ _ _ _ _ _ _ k

theorem transform_no_shape_error (inp lin : NdArr) (t : ArgVec) (order : String)
    (origin : Option ArgVec) (out? : Option NdArr) (oio : Option (List ℚ)) (bg : ℚ)
    (h : wellShaped inp lin t origin out? oio) :
    ∀ k, k ∈ shapeKinds →
      (transform inp lin t order origin out? oio bg).ret ≠ .error (.valueError k) := by
  obtain ⟨h1, h2, h3, h4, h5⟩ := h
  intro k hk
  simp only [transform]
  rw [if_neg (not_not_intro h1), if_neg (not_not_intro h2)]
  rcases origin with _ | o
  · exact transformRest_no_shape_error inp lin t order _ out? oio bg _ h4 h5 k hk
  · dsimp only
    rw [if_neg (not_not_intro (h3 o rfl))]
    exact transformRest_no_shape_error inp lin t order _ out? oio bg _ h4 h5 k hk

/-- **C7.** A `ValueError` is raised whenever any of the five dimensionality
agreements fails (linear-transform shape, translation length, origin length
when given, output grid dimensionality when given, output-window-offset length
when given); and only those mismatches produce the shape-related `ValueError`
kinds — when all five agree, no shape-kind `ValueError` can be raised. -/
theorem valueError_iff_shape_mismatch (inp lin : NdArr) (t : ArgVec) (order : String)
    (origin : Option ArgVec) (out? : Option NdArr) (oio : Option (List ℚ)) (bg : ℚ) :
    ((¬ (∀ v ∈ lin.shape, v = inp.shape.length) ∨
      t.vals.length ≠ inp.shape.length ∨
      (∃ o, origin = some o ∧ o.vals.length ≠ inp.shape.length) ∨
      (∃ oa, out? = some oa ∧ oa.shape.length ≠ inp.shape.length) ∨
      (∃ u, oio = some u ∧ u.length ≠ inp.shape.length)) →
      ∃ k, (transform inp lin t order origin out? oio bg).ret = .error (.valueError k)) ∧
    (¬ (¬ (∀ v ∈ lin.shape, v = inp.shape.length) ∨
      t.vals.length ≠ inp.shape.length ∨
      (∃ o, origin = some o ∧ o.vals.length ≠ inp.shape.length) ∨
      (∃ oa, out? = some oa ∧ oa.shape.length ≠ inp.shape.length) ∨
      (∃ u, oio = some u ∧ u.length ≠ inp.shape.length)) →
      ∀ k, k ∈ shapeKinds →
        (transform inp lin t order origin out? oio bg).ret ≠ .error (.valueError k)) := by
  constructor
  · intro hmis
    rcases transform_valueError_or inp lin t order origin out? oio bg with h | hws
    · exact h
    · exfalso
      obtain ⟨h1, h2, h3, h4, h5⟩ := hws
      rcases hmis with h | h | ⟨o, ho, hlen⟩ | ⟨oa, hoa, hlen⟩ | ⟨u, hu, hlen⟩
      · exact h h1
      · exact h h2
      · exact hlen (h3 o ho)
      · exact hlen (h4 oa hoa)
      · exact hlen (h5 u hu)
  · intro hmis
    apply transform_no_shape_error
    refine ⟨?_, ?_, ?_, ?_, ?_⟩
    · by_contra hc
      exact hmis (Or.inl hc)
    · by_contra hc
      exact hmis (Or.inr (Or.inl hc))
    · intro o ho
      by_contra hc
      exact hmis (Or.inr (Or.inr (Or.inl ⟨o, ho, hc⟩)))
    · intro oa hoa
      by_contra hc
      exact hmis (Or.inr (Or.inr (Or.inr (Or.inl ⟨oa, hoa, hc⟩))))
    · intro u hu
      by_contra hc
      exact hmis (Or.inr (Or.inr (Or.inr (Or.inr ⟨u, hu, hc⟩))))

theorem valueError_iff_shape_mismatch_witness :
    (∃ k, (transform ⟨.f64, [1], [5]⟩ (eyeArr 1) ⟨[0, 0], none⟩ "linear"
        none none none 0).ret = .error (.valueError k)) ∧
    (∀ k, k ∈ shapeKinds →
      (transform ⟨.f64, [1], [5]⟩ (eyeArr 1) ⟨[0], none⟩ "fancy"
        none none none 0).ret ≠ .error (.valueError k)) :=
  ⟨(valueError_iff_shape_mismatch ⟨.f64, [1], [5]⟩ (eyeArr 1) ⟨[0, 0], none⟩ "linear"
      none none none 0).1 (Or.inr (Or.inl (by decide))),
    (valueError_iff_shape_mismatch ⟨.f64, [1], [5]⟩ (eyeArr 1) ⟨[0], none⟩ "fancy"
      none none none 0).2 (by
        intro h
        rcases h with h | h | ⟨o, ho, _⟩ | ⟨oa, hoa, _⟩ | ⟨u, hu, _⟩
        · exact h (by decide)
        · exact h (by decide)
        · cases ho
        · cases hoa
        · cases hu)⟩

/-! ## The combined-offset formula -/

theorem zipAdd_getD (a b : List ℚ) (j : ℕ) (hja : j < a.length) (hjb : j < b.length) :
    (zipAdd a b).getD j 0 = a.getD j 0 + b.getD j 0 :=
  getD_zipWith _ a b j hja hjb

theorem negVec_getD (a : List ℚ) (j : ℕ) (hj : j < a.length) :
    (negVec a).getD j 0 = -(a.getD j 0) := by
  rw [negVec, List.getD_eq_getElem?_getD, List.getElem?_map, List.getElem?_eq_getElem hj]
  simp [List.getD_eq_getElem?_getD, List.getElem?_eq_getElem hj]

theorem matVecFlat_getD (d : ℕ) (m w : List ℚ) (i : ℕ) (hi : i < d) :
    (matVecFlat d m w).getD i 0 =
      ∑ j in Finset.range d, m.getD (i * d + j) 0 * w.getD j 0 := by
  rw [matVecFlat, getD_range_map, if_pos hi, sum_map_range]

theorem list_eq_of_getD (a b : List ℚ) (d : ℕ) (ha : a.length = d) (hb : b.length = d)
    (h : ∀ i, i < d → a.getD i 0 = b.getD i 0) : a = b := by
  apply List.ext_getElem?
  intro i
  rcases lt_or_le i d with hi | hi
  · have h2 := h i hi
    rw [List.getD_eq_getElem?_getD, List.getD_eq_getElem?_getD,
      List.getElem?_eq_getElem (by omega), List.getElem?_eq_getElem (by omega)] at h2
    simp only [Option.getD_some] at h2
    rw [List.getElem?_eq_getElem (by omega), List.getElem?_eq_getElem (by omega), h2]
  · rw [List.getElem?_eq_none (by omega), List.getElem?_eq_none (by omega)]

/-- Transcription of the spec's §4.1 words: the effective offset
`b = invL·(−translation−origin) + origin`. -/
def specOffsetB (d : ℕ) (invL t o : List ℚ) : List ℚ :=
  zipAdd (matVecFlat d invL (zipSub (negVec t) o)) o

/-- Transcription of the claim's words: the alleged combined offset
`b + invL·(u − translation)`. -/
def claimOffset (d : ℕ) (invL t o u : List ℚ) : List ℚ :=
  zipAdd (specOffsetB d invL t o) (matVecFlat d invL (zipSub u t))

/-- The combined offset the wrapper actually passes to the core, `b + invL·u`:
the in-place `translation -= output_image_origin` already folds `u` into the
translation before `b` is formed, so `u` enters once, not together with a
second `−translation`. -/
def amendedOffset (d : ℕ) (invL t o u : List ℚ) : List ℚ :=
  zipAdd (specOffsetB d invL t o) (matVecFlat d invL u)

theorem combined_shift (d : ℕ) (m t o u : List ℚ) (ht : t.length = d)
    (ho : o.length = d) (hu : u.length = d) :
    combinedOf d m (zipSub t u) o =
      zipAdd (specOffsetB d m t o) (matVecFlat d m u) := by
  have hzl : (zipSub t u).length = d := by simp [zipSub, ht, hu]
  apply list_eq_of_getD _ _ d
  · simp [combinedOf, zipAdd, matVecFlat_length, ho]
  · simp [zipAdd, specOffsetB, matVecFlat_length, ho]
  · intro i hi
    rw [combinedOf, zipAdd_getD _ _ i (by rw [matVecFlat_length]; exact hi) (by omega),
      zipAdd_getD _ _ i
        (by simp only [specOffsetB, zipAdd, List.length_zipWith, matVecFlat_length]; omega)
        (by rw [matVecFlat_length]; exact hi),
      specOffsetB, zipAdd_getD _ _ i (by rw [matVecFlat_length]; exact hi) (by omega),
      matVecFlat_getD d _ _ i hi, matVecFlat_getD d _ _ i hi, matVecFlat_getD d _ _ i hi]
    have hsum : ∀ j ∈ Finset.range d,
        m.getD (i * d + j) 0 * (zipSub (negVec (zipSub t u)) o).getD j 0 =
        m.getD (i * d + j) 0 * (zipSub (negVec t) o).getD j 0 +
          m.getD (i * d + j) 0 * u.getD j 0 := by
      intro j hj
      rw [Finset.mem_range] at hj
      rw [zipSub_getD _ _ j (by simp only [negVec, List.length_map]; omega) (by omega),
        zipSub_getD _ _ j (by simp only [negVec, List.length_map]; omega) (by omega),
        negVec_getD _ j (by omega), negVec_getD _ j (by omega),
        zipSub_getD _ _ j (by omega) (by omega)]
      ring
    rw [Finset.sum_congr rfl hsum, Finset.sum_add_distrib]
    ring

theorem offset_sampling_identity (d : ℕ) (m t o u idx : List ℚ) (ht : t.length = d)
    (ho : o.length = d) (hu : u.length = d) (hidx : idx.length = d) :
    zipAdd (matVecFlat d m idx) (amendedOffset d m t o u) =
      zipAdd (matVecFlat d m (zipSub (zipSub (zipAdd idx u) t) o)) o := by
  have hlz : (zipSub (zipSub (zipAdd idx u) t) o).length = d := by
    simp [zipSub, zipAdd, ht, ho, hu, hidx]
  apply list_eq_of_getD _ _ d
  · simp [zipAdd, amendedOffset, specOffsetB, matVecFlat_length, ho]
  · simp [zipAdd, matVecFlat_length, ho]
  · intro i hi
    rw [zipAdd_getD _ _ i (by rw [matVecFlat_length]; exact hi)
        (by simp only [amendedOffset, specOffsetB, zipAdd, List.length_zipWith,
          matVecFlat_length]; omega),
      zipAdd_getD _ _ i (by rw [matVecFlat_length]; exact hi) (by omega),
      amendedOffset, zipAdd_getD _ _ i
        (by simp only [specOffsetB, zipAdd, List.length_zipWith, matVecFlat_length]; omega)
        (by rw [matVecFlat_length]; exact hi),
      specOffsetB, zipAdd_getD _ _ i (by rw [matVecFlat_length]; exact hi) (by omega),
      matVecFlat_getD d _ _ i hi, matVecFlat_getD d _ _ i hi, matVecFlat_getD d _ _ i hi,
      matVecFlat_getD d _ _ i hi]
    have hsum : ∀ j ∈ Finset.range d,
        m.getD (i * d + j) 0 * (zipSub (zipSub (zipAdd idx u) t) o).getD j 0 =
        m.getD (i * d + j) 0 * idx.getD j 0 +
          (m.getD (i * d + j) 0 * (zipSub (negVec t) o).getD j 0 +
            m.getD (i * d + j) 0 * u.getD j 0) := by
      intro j hj
      rw [Finset.mem_range] at hj
      rw [zipSub_getD _ _ j
          (by simp only [zipSub, zipAdd, List.length_zipWith]; omega) (by omega),
        zipSub_getD _ _ j (by simp only [zipAdd, List.length_zipWith]; omega) (by omega),
        zipAdd_getD _ _ j (by omega) (by omega),
        zipSub_getD _ _ j (by simp only [negVec, List.length_map]; omega) (by omega),
        negVec_getD _ j (by omega)]
      ring
    rw [Finset.sum_congr rfl hsum, Finset.sum_add_distrib]
    rw [Finset.sum_add_distrib]
    ring

/-- **C1 counterexample.** In dimension 1 with the identity linear transform,
`translation = [1]`, `origin = [0]` and `output_image_origin = [0]`, the offset
the wrapper passes to the core is `[-1]`, not the claim's
`b + invL·(u − translation) = [-2]`: the claim subtracts the translation a
second time. -/
theorem combined_offset_claim_counterexample :
    (transform ⟨.f64, [1], [5]⟩ (eyeArr 1) ⟨[1], none⟩ "linear"
        (some ⟨[0], none⟩) none (some [0]) 0).coreOffset ≠
      some (claimOffset 1 (invFlat 1 (eyeFlat 1)) [1] [0] [0]) := by
  rw [transform_origin_some _ _ _ _ _ _ _ _ (by decide) rfl rfl]
  rw [transformRest_tail_eq _ _ _ _ _ _ _ _ _
    ⟨.f64, [1], List.replicate 1 0⟩ .lin (zipSub [1] [0])
    (Or.inl ⟨rfl, rfl⟩) (Or.inl ⟨rfl, rfl⟩) (Or.inr ⟨[0], rfl, rfl, rfl⟩)]
  dsimp only
  rw [show workingDType DType.f64 = DType.f64 from rfl]
  rw [transformTail_matrix (eyeArr 1) ⟨[1], none⟩ [0] none 0 .f64
    ⟨.f64, [1], [5]⟩ ⟨.f64, [1], List.replicate 1 0⟩ .lin (zipSub [1] [0]) 1
    rfl rfl rfl (by rw [show (eyeArr 1).data = eyeFlat 1 from rfl, detFlat_eye]; norm_num)
    rfl rfl rfl rfl]
  intro hc
  simp only [Option.some.injEq] at hc
  rw [show (eyeArr 1).data = eyeFlat 1 from rfl, invFlat_eye] at hc
  norm_num [combinedOf, claimOffset, specOffsetB, matVecFlat, zipAdd, zipSub, negVec,
    eyeFlat, List.range_succ] at hc

/-- **C1 (amended).** For every input of dimension `d`, invertible `d×d`
linear transform, translation, origin and output-window offset `u` of length
`d`, the wrapper folds them into the single constant offset
`b + invL·u` (with `b = invL·(−translation−origin) + origin`) — not the
claimed `b + invL·(u−translation)` — and that constant satisfies, for every
index vector `idx`,
`invL·idx + (b + invL·u) = invL·(idx + u − translation − origin) + origin`. -/
theorem combined_offset_formula (inp lin : NdArr) (t o : ArgVec) (u : List ℚ)
    (order : String) (bg : ℚ) (d : ℕ)
    (hd : inp.shape.length = d)
    (hsh : lin.shape = [d, d]) (hlen : lin.data.length = d * d)
    (hdet : detFlat d lin.data ≠ 0)
    (horder : order = "linear" ∨ order = "cubic")
    (ht : t.vals.length = d) (ho : o.vals.length = d) (hu : u.length = d) :
    (transform inp lin t order (some o) none (some u) bg).coreOffset =
      some (amendedOffset d (invFlat d lin.data) t.vals o.vals u) ∧
    ∀ idx : List ℚ, idx.length = d →
      zipAdd (matVecFlat d (invFlat d lin.data) idx)
          (amendedOffset d (invFlat d lin.data) t.vals o.vals u) =
        zipAdd (matVecFlat d (invFlat d lin.data)
            (zipSub (zipSub (zipAdd idx u) t.vals) o.vals)) o.vals := by
  have hlin : ∀ v ∈ lin.shape, v = inp.shape.length := by
    rw [hsh, hd]
    intro v hv
    rcases List.mem_cons.mp hv with rfl | hv2
    · rfl
    · rcases List.mem_cons.mp hv2 with rfl | hv3
      · rfl
      · cases hv3
  rw [transform_origin_some inp lin t order o none (some u) bg hlin (by omega) (by omega)]
  have hkern : ∃ kern, (order = "linear" ∧ kern = Kern.lin) ∨
      (order = "cubic" ∧ kern = Kern.cub) := by
    rcases horder with h | h
    · exact ⟨.lin, Or.inl ⟨h, rfl⟩⟩
    · exact ⟨.cub, Or.inr ⟨h, rfl⟩⟩
  obtain ⟨kern, hk⟩ := hkern
  rw [transformRest_tail_eq inp lin t order o.vals none (some u) bg (workingDType inp.dt)
    ⟨workingDType inp.dt, inp.shape, List.replicate inp.shape.prod 0⟩ kern
    (zipSub t.vals u) (Or.inl ⟨rfl, rfl⟩) hk (Or.inr ⟨u, rfl, by omega, rfl⟩)]
  rw [transformTail_matrix lin t o.vals none bg (workingDType inp.dt)
    ⟨workingDType inp.dt, inp.shape, inp.data⟩
    ⟨workingDType inp.dt, inp.shape, List.replicate inp.shape.prod 0⟩ kern
    (zipSub t.vals u) d hd hsh hlen hdet ho (by simp [zipSub, ht, hu]) hd rfl]
  constructor
  · show some (combinedOf d (invFlat d lin.data) (zipSub t.vals u) o.vals) =
      some (amendedOffset d (invFlat d lin.data) t.vals o.vals u)
    rw [combined_shift d _ t.vals o.vals u ht ho hu]
    rfl
  · intro idx hidx
    exact offset_sampling_identity d _ t.vals o.vals u idx ht ho hu hidx

theorem combined_offset_formula_witness :
    ((transform ⟨.f64, [1], [5]⟩ (eyeArr 1) ⟨[1], none⟩ "linear"
        (some ⟨[0], none⟩) none (some [0]) 0).coreOffset =
      some (amendedOffset 1 (invFlat 1 (eyeFlat 1)) [1] [0] [0]) ∧
    ∀ idx : List ℚ, idx.length = 1 →
      zipAdd (matVecFlat 1 (invFlat 1 (eyeFlat 1)) idx)
          (amendedOffset 1 (invFlat 1 (eyeFlat 1)) [1] [0] [0]) =
        zipAdd (matVecFlat 1 (invFlat 1 (eyeFlat 1))
            (zipSub (zipSub (zipAdd idx [0]) [1]) [0])) [0]) :=
  combined_offset_formula ⟨.f64, [1], [5]⟩ (eyeArr 1) ⟨[1], none⟩ ⟨[0], none⟩ [0]
    "linear" 0 1 rfl rfl rfl
    (by rw [show (eyeArr 1).data = eyeFlat 1 from rfl, detFlat_eye]; norm_num)
    (Or.inl rfl) rfl rfl rfl

/-! ## What the linear-transformation shape check accepts -/

theorem npLinalgInv_ok_shape (a b : NdArr) (h : npLinalgInv a = .ok b) :
    b.shape = a.shape := by
  simp only [npLinalgInv] at h
  split at h
  · cases h
  · split at h
    · cases h
    · split at h
      · cases h
      · cases h
        rfl

theorem npLinalgInv_rank1 (a : NdArr) (h : a.shape.length < 2) :
    npLinalgInv a = .error .linAlgError := by
  simp only [npLinalgInv]
  rw [if_pos h]

theorem transformRest_ret_kinds (inp lin : NdArr) (t : ArgVec) (order : String)
    (ov : List ℚ) (out? : Option NdArr) (oio : Option (List ℚ)) (bg : ℚ) (dt : DType)
    (k : ValErrKind)
    (h : (transformRest inp lin t order ov out? oio bg dt).ret = .error (.valueError k)) :
    k = .outputDim ∨ k = .outputDtype ∨ k = .orderName ∨ k = .outputOriginLen := by
  simp only [transformRest] at h
  split at h
  · next k2 heq =>
    dsimp only at h
    simp only [Except.error.injEq, PyErr.valueError.injEq] at h
    rcases out? with _ | oi <;> dsimp only at heq
    · cases heq
    · by_cases h1 : oi.shape.length ≠ inp.shape.length
      · rw [if_pos h1] at heq
        cases heq
        exact Or.inl h.symm
      · rw [if_neg h1] at heq
        by_cases h2 : oi.dt ≠ dt
        · rw [if_pos h2] at heq
          cases heq
          exact Or.inr (Or.inl h.symm)
        · rw [if_neg h2] at heq
          cases heq
  · next outputArr heq =>
    split at h
    · next e heq2 =>
      have he : e = PyErr.valueError .orderName := by
        split at heq2
        · cases heq2
        · split at heq2
          · cases heq2
          · cases heq2
            rfl
      dsimp only at h
      rw [he] at h
      simp only [Except.error.injEq, PyErr.valueError.injEq] at h
      exact Or.inr (Or.inr (Or.inl h.symm))
    · next kern heq2 =>
      rcases oio with _ | u
      · exact absurd h (transformTail_ret_not_valueError _ _ _ _ _ _ _ _ _ _ k)
      · dsimp only at h
        split at h
        · dsimp only at h
          simp only [Except.error.injEq, PyErr.valueError.injEq] at h
          exact Or.inr (Or.inr (Or.inr h.symm))
        · exact absurd h (transformTail_ret_not_valueError _ _ _ _ _ _ _ _ _ _ k)

/-- **C10 counterexample.** A `(1,1,1)` tensor of ones passes the wrapper's
linear-shape check (every axis length equals `d = 1`) and also passes
`np.linalg.inv`, which happily inverts the trailing `1×1` slices of the stack,
so the failure is NOT from the matrix-inversion step: the call dies inside the
compiled core (the combined offset it is handed is not a `d`-vector), not with
`LinAlgError` and not with any `ValueError`. -/
theorem linear_shape_check_counterexample :
    (transform ⟨.f64, [1], [7]⟩ ⟨.f64, [1, 1, 1], [1]⟩ ⟨[0], none⟩ "linear"
        none none none 0).ret = .error .coreError ∧
    (transform ⟨.f64, [1], [7]⟩ ⟨.f64, [1, 1, 1], [1]⟩ ⟨[0], none⟩ "linear"
        none none none 0).ret ≠ .error .linAlgError ∧
    ∀ k, (transform ⟨.f64, [1], [7]⟩ ⟨.f64, [1, 1, 1], [1]⟩ ⟨[0], none⟩ "linear"
        none none none 0).ret ≠ .error (.valueError k) := by
  have hret : (transform ⟨.f64, [1], [7]⟩ ⟨.f64, [1, 1, 1], [1]⟩ ⟨[0], none⟩ "linear"
      none none none 0).ret = .error .coreError := by
    rw [transform_origin_none _ _ _ _ _ _ _ (by decide) rfl]
    rw [transformRest_tail_eq _ _ _ _ _ _ _ _ _
      ⟨.f64, [1], List.replicate 1 0⟩ .lin [0]
      (Or.inl ⟨rfl, rfl⟩) (Or.inl ⟨rfl, rfl⟩) (Or.inl ⟨rfl, rfl⟩)]
    have hinv : npLinalgInv ⟨.f64, [1, 1, 1], [1]⟩ = .ok ⟨.f64, [1, 1, 1], [1]⟩ := by
      norm_num [npLinalgInv, detFlat, minorFlat, invFlat, List.range_succ]
    simp only [transformTail]
    rw [hinv]
    dsimp only
    split
    · next e heq =>
      dsimp only
      rw [coreTransform_error_kind _ _ _ _ _ _ _ heq]
    · next res heq =>
      exfalso
      rw [coreTransform] at heq
      split at heq
      · next hcond =>
        exact absurd (congrArg List.length hcond.1) (by decide)
      · cases heq
  refine ⟨hret, ?_, ?_⟩
  · rw [hret]
    simp
  · intro k
    rw [hret]
    simp

/-- **C10 (amended).** The wrapper's linear-shape check accepts any array
every one of whose axis lengths equals the input dimensionality `d` — for
such arrays the shape `ValueError` can never be raised — but a subsequent
failure need not come from the inversion step: a 1-D length-`d` vector does
fail inside `np.linalg.inv` (`LinAlgError`, rank < 2), while a rank-≥3 tensor
whose trailing slices invert fine sails past the inversion and dies in the
compiled core instead. -/
theorem linear_shape_check_permissive (inp lin : NdArr) (t : ArgVec) (order : String)
    (origin : Option ArgVec) (out? : Option NdArr) (oio : Option (List ℚ)) (bg : ℚ)
    (d : ℕ) (hd : inp.shape.length = d) :
    ((∀ v ∈ lin.shape, v = d) →
      (transform inp lin t order origin out? oio bg).ret ≠
        .error (.valueError .linShape)) ∧
    (lin.shape = [d] → t.vals.length = d → (order = "linear" ∨ order = "cubic") →
      (transform inp lin t order none none none bg).ret = .error .linAlgError) ∧
    (∀ linInv, npLinalgInv lin = .ok linInv → 3 ≤ lin.shape.length →
      (∀ v ∈ lin.shape, v = d) → t.vals.length = d →
      (order = "linear" ∨ order = "cubic") →
      (transform inp lin t order none none none bg).ret = .error .coreError) := by
  refine ⟨?_, ?_, ?_⟩
  · intro hall hc
    have hall' : ∀ v ∈ lin.shape, v = inp.shape.length := by
      intro v hv
      rw [hd]
      exact hall v hv
    simp only [transform] at hc
    rw [if_neg (not_not_intro hall')] at hc
    split at hc
    · simp at hc
    · rcases origin with _ | o
      · dsimp only at hc
        rcases transformRest_ret_kinds _ _ _ _ _ _ _ _ _ _ hc with h | h | h | h <;> cases h
      · dsimp only at hc
        split at hc
        · simp at hc
        · rcases transformRest_ret_kinds _ _ _ _ _ _ _ _ _ _ hc with h | h | h | h <;>
            cases h
  · intro hsh ht horder
    have hall' : ∀ v ∈ lin.shape, v = inp.shape.length := by
      rw [hsh, hd]
      intro v hv
      rcases List.mem_cons.mp hv with rfl | hv2
      · rfl
      · cases hv2
    rw [transform_origin_none inp lin t order none none bg hall' (by omega)]
    have hkern : ∃ kern, (order = "linear" ∧ kern = Kern.lin) ∨
        (order = "cubic" ∧ kern = Kern.cub) := by
      rcases horder with h | h
      · exact ⟨.lin, Or.inl ⟨h, rfl⟩⟩
      · exact ⟨.cub, Or.inr ⟨h, rfl⟩⟩
    obtain ⟨kern, hk⟩ := hkern
    rw [transformRest_tail_eq inp lin t order _ none none bg (workingDType inp.dt)
      ⟨workingDType inp.dt, inp.shape, List.replicate inp.shape.prod 0⟩ kern t.vals
      (Or.inl ⟨rfl, rfl⟩) hk (Or.inl ⟨rfl, rfl⟩)]
    simp only [transformTail]
    rw [npLinalgInv_rank1 lin (by rw [hsh]; simp)]
  · intro linInv hinv h3 hall ht horder
    have hall' : ∀ v ∈ lin.shape, v = inp.shape.length := by
      intro v hv
      rw [hd]
      exact hall v hv
    rw [transform_origin_none inp lin t order none none bg hall' (by omega)]
    have hkern : ∃ kern, (order = "linear" ∧ kern = Kern.lin) ∨
        (order = "cubic" ∧ kern = Kern.cub) := by
      rcases horder with h | h
      · exact ⟨.lin, Or.inl ⟨h, rfl⟩⟩
      · exact ⟨.cub, Or.inr ⟨h, rfl⟩⟩
    obtain ⟨kern, hk⟩ := hkern
    rw [transformRest_tail_eq inp lin t order _ none none bg (workingDType inp.dt)
      ⟨workingDType inp.dt, inp.shape, List.replicate inp.shape.prod 0⟩ kern t.vals
      (Or.inl ⟨rfl, rfl⟩) hk (Or.inl ⟨rfl, rfl⟩)]
    simp only [transformTail]
    rw [hinv]
    dsimp only
    split
    · next e heq =>
      dsimp only
      rw [coreTransform_error_kind _ _ _ _ _ _ _ heq]
    · next res heq =>
      exfalso
      rw [coreTransform] at heq
      split at heq
      · next hcond =>
        have h1 := congrArg List.length hcond.1
        simp only [addLast, matVecLast, List.length_take, List.length_singleton] at h1
        rw [npLinalgInv_ok_shape lin linInv hinv] at h1
        omega
      · cases heq

theorem linear_shape_check_permissive_witness :
    ((transform ⟨.f64, [1], [7]⟩ ⟨.f64, [1, 1, 1], [1]⟩ ⟨[0], none⟩ "linear"
        none none none 0).ret ≠ .error (.valueError .linShape)) ∧
    ((transform ⟨.f64, [1], [7]⟩ ⟨.f64, [1], [4]⟩ ⟨[0], none⟩ "linear"
        none none none 0).ret = .error .linAlgError) :=
  ⟨(linear_shape_check_permissive ⟨.f64, [1], [7]⟩ ⟨.f64, [1, 1, 1], [1]⟩ ⟨[0], none⟩
      "linear" none none none 0 1 rfl).1 (by decide),
    (linear_shape_check_permissive ⟨.f64, [1], [7]⟩ ⟨.f64, [1], [4]⟩ ⟨[0], none⟩
      "linear" none none none 0 1 rfl).2.1 rfl rfl (Or.inl rfl)⟩

theorem identity_transform_eq_input_witness :
    (transform ⟨.f64, [2], [3, 4]⟩ (eyeArr 1) ⟨List.replicate 1 0, none⟩ "linear"
        none none none 0).ret = .ok ⟨workingDType .f64, [2], [3, 4]⟩ :=
  identity_transform_eq_input ⟨.f64, [2], [3, 4]⟩ 1 rfl (by decide) (by decide) rfl

theorem fractional_translation_blend_witness :
    (transform ⟨.f64, List.replicate 1 6, List.replicate (List.replicate 1 6).prod 2⟩
        (eyeArr 1)
        ⟨(List.range 1).map fun j => if j = 0 then (2 : ℚ)/3 else 0, none⟩
        "linear" none none none 15).ret =
      .ok ⟨.f64, List.replicate 1 6,
        (List.range (List.replicate 1 6).prod).map fun c =>
          if (decode (List.replicate 1 6) c).getD 0 0 = 0
          then 1/3 * 2 + 2/3 * 15 else 2⟩ :=
  fractional_translation_blend 1 0 (by decide) (by decide) (by decide)

end AffineND
